import Mathlib

/-!
Verification development for the `@marianmeres/condition-parser` repository.

The parser (`src/parser.ts`, class `ConditionParser`) is a cursor-driven
recursive-descent parser over a trimmed input string.  We embed it shallowly:
the cursor and the metadata accumulators become an explicit state `St`, the
input string and the configuration options become a `Cfg`, thrown exceptions
become an error channel that carries the state at the moment of the throw, and
the in-place mutation of the output array `out` is modelled by threading the
output list through both the success and the error channel (mutations survive
exceptions, exactly as in the source).

The mutually recursive grammar layer
(`#parseCondition` / its term loop / `#parseTerm` / `#parseParenthesizedExpression`)
is embedded as a single function `run` over a `Call` tag, structurally
recursive on a fuel parameter so that every definition is kernel-computable.
`runFuel_sufficient` proves that the fuel used by the top level `parse` never
runs out, so the fuel is invisible: `parse` is total and models the source
faithfully on every input.

Each loop of the lexical layer advances the cursor by at least one position per
fuel unit and is given exactly `input.length - pos` fuel, so fuel exhaustion
can only happen with the cursor at or past the end of the input, where the
source loop exits as well (the exhaustion branch returns the same result as the
source's loop-exit branch).
-/

/-- Strings are modelled as lists of characters (JS strings, indexed by `get?`). -/
abbrev Str := List Char

/-- The character class of the JS regex `\s` (also the set trimmed by
`String.prototype.trim`). -/
def wsChars : Str :=
  [' ', '\t', '\n', '\x0b', '\x0c', '\r',
   '\u00A0', '\u1680',
   '\u2000', '\u2001', '\u2002', '\u2003', '\u2004', '\u2005',
   '\u2006', '\u2007', '\u2008', '\u2009', '\u200A',
   '\u2028', '\u2029', '\u202F', '\u205F', '\u3000', '\uFEFF']

/-- JS whitespace test `/\s/.test(c)`. -/
def isWs (c : Char) : Bool := wsChars.contains c

/-- JS `String.prototype.trim`: strip leading and trailing whitespace. -/
def trimChars (l : Str) : Str :=
  ((l.dropWhile isWs).reverse.dropWhile isWs).reverse

/-- An `ExpressionContext` leaf: `{ key, operator, value }` (all strings). -/
structure Expr where
  key : Str
  operator : Str
  value : Str
deriving DecidableEq, Repr

/-- `ConditionJoinOperator` from `@marianmeres/condition-builder`:
`"and" | "or" | "andNot" | "orNot"`. -/
inductive JoinOp where
  | and
  | or
  | andNot
  | orNot
deriving DecidableEq, Repr

/-- A node of the `ConditionDump` output sequence.  The source object has the
fields `operator`, `expression`, `condition` with exactly one of
`expression`/`condition` defined (the other is `undefined`), so we use a sum. -/
inductive Node where
  | leaf (operator : JoinOp) (expression : Expr)
  | group (operator : JoinOp) (condition : List Node)
deriving Repr

abbrev Nodes := List Node

/-- The node's `operator` field. -/
def Node.operator : Node → JoinOp
  | .leaf op _ => op
  | .group op _ => op

/-- Overwrite the node's `operator` field (the `out.at(-1)!.operator = ...`
mutation). -/
def Node.withOperator : Node → JoinOp → Node
  | .leaf _ e, j => .leaf j e
  | .group _ cs, j => .group j cs

/-- The private `#meta` accumulators, four insertion-ordered JS `Set`s.  The
`expressions` set stores `JSON.stringify([key, operator, value])` strings,
which is an injective encoding of the triple, so we store the triples. -/
structure MetaAcc where
  keys : List Str
  operators : List Str
  values : List Str
  expressions : List (Str × Str × Str)
deriving DecidableEq, Repr

def MetaAcc.empty : MetaAcc := ⟨[], [], [], []⟩

/-- JS `Set.prototype.add`: append if absent, keep first-seen position. -/
def addUnique {α : Type} [DecidableEq α] (l : List α) (x : α) : List α :=
  if x ∈ l then l else l ++ [x]

/-- The four `this.#meta.<...>.add(...)` calls of `#parseBasicExpression`. -/
def metaAdd (m : MetaAcc) (e : Expr) : MetaAcc :=
  ⟨addUnique m.keys e.key,
   addUnique m.operators e.operator,
   addUnique m.values e.value,
   addUnique m.expressions (e.key, e.operator, e.value)⟩

/-- Mutable per-parse state: the cursor `#pos` and the `#meta` accumulators. -/
structure St where
  pos : Nat
  meta : MetaAcc
deriving Repr

/-- Fixed per-parse data: the (trimmed) `#input`, `#defaultOperator`,
`#transform` and `#preAddHook`.  `transform` models `this.#transform?.(x) ?? x`:
the hook may return a nullish value (`none`), in which case the untransformed
triple is used.  `preAddHook` is only installed when a function was supplied. -/
structure Cfg where
  input : Str
  defaultOperator : Str
  transform : Expr → Option Expr
  preAddHook : Option (Expr → Option Expr)

/-- The distinct `throw new Error(...)` sites of the parser. -/
inductive PErr where
  | notParenthesized
  | unterminatedParenValue
  | notQuoted
  | unterminatedQuote
  | expectedColon
  | parenthesizedOperatorNotAllowed
  | parenLevelMismatch (preLevel postLevel : Nat)
  | expectedClosingParen
deriving DecidableEq, Repr

/-- Result of a lexical-layer parser: a value, or a thrown error; both carry
the state (the error carries the state at the moment of the throw). -/
inductive LexRes (α : Type) where
  | ok (val : α) (st : St)
  | err (e : PErr) (st : St)
deriving Repr

/-- Result of a grammar-layer parser.  The output list is carried on both
channels because the source mutates `out` in place, so nodes already pushed
survive a thrown exception. -/
inductive PRes where
  | ok (out : Nodes) (st : St)
  | err (out : Nodes) (e : PErr) (st : St)
deriving Repr

/-! ### Cursor primitives (`#peek`, `#consume`, `#consumeWhitespace`, ...) -/

/-- `#peek(offset)` relative to an explicit position: `input[pos+offset]`,
with both out-of-range directions giving a non-character (`""`/`undefined`
in JS, `none` here). -/
def peekP (cfg : Cfg) (p : Nat) (off : Int) : Option Char :=
  let i : Int := (p : Int) + off
  if i < 0 then none else cfg.input.get? i.toNat

/-- `this.#peek(offset)`. -/
def peek (cfg : Cfg) (st : St) (off : Int) : Option Char :=
  peekP cfg st.pos off

/-- `this.#consume()` on a bare position: the read character (if any) and the
new position (advanced only when in range). -/
def consumeP (cfg : Cfg) (p : Nat) : Option Char × Nat :=
  match cfg.input.get? p with
  | some c => (some c, p + 1)
  | none => (none, p)

/-- Loop of `#consumeWhitespace`; one fuel unit per consumed character. -/
def consumeWsGo (cfg : Cfg) : Nat → Nat → Nat
  | 0, p => p
  | fuel + 1, p =>
    match cfg.input.get? p with
    | some c => if isWs c then consumeWsGo cfg fuel (p + 1) else p
    | none => p

/-- `this.#consumeWhitespace()`. -/
def consumeWhitespace (cfg : Cfg) (st : St) : St :=
  ⟨consumeWsGo cfg (cfg.input.length - st.pos) st.pos, st.meta⟩

/-- `this.#isQuoteAhead()`: `/['"]/.test(this.#peek())`. -/
def isQuoteAhead (cfg : Cfg) (st : St) : Bool :=
  peek cfg st 0 == some '\'' || peek cfg st 0 == some '"'

/-- `this.#isEOF()`. -/
def isEOF (cfg : Cfg) (st : St) : Bool :=
  st.pos ≥ cfg.input.length

/-! ### Lexical layer -/

/-- Shared scan loop of `#parseQuotedString` and `#parseParenthesizedValue`
(the two source loops are character-for-character identical, with `close`
being the quote character resp. `)`): consume a character; if it equals
`close` and the character before it is not a backslash, succeed; if it is a
backslash and `close` is next, emit `close` and skip it; otherwise emit the
character.  Returns `none` (unterminated) when the end of input is reached. -/
def scanGo (cfg : Cfg) (close : Char) : Nat → Str → Nat → (Option Str × Nat)
  | 0, _, p => (none, p)
  | fuel + 1, acc, p =>
    match cfg.input.get? p with
    | none => (none, p)
    | some c =>
      if c = close ∧ peekP cfg (p + 1) (-2) ≠ some '\\' then (some acc, p + 1)
      else if c = '\\' ∧ peekP cfg (p + 1) 0 = some close then
        scanGo cfg close fuel (acc ++ [close]) (p + 2)
      else scanGo cfg close fuel (acc ++ [c]) (p + 1)

/-- `this.#parseQuotedString()`. -/
def parseQuotedString (cfg : Cfg) (st : St) : LexRes Str :=
  match peek cfg st 0 with
  | some q =>
    if q = '\'' ∨ q = '"' then
      match scanGo cfg q (cfg.input.length - (st.pos + 1)) [] (st.pos + 1) with
      | (some s, p) => .ok s ⟨p, st.meta⟩
      | (none, p) => .err .unterminatedQuote ⟨p, st.meta⟩
    else .err .notQuoted st
  | none => .err .notQuoted st

/-- `this.#parseParenthesizedValue()`. -/
def parseParenthesizedValue (cfg : Cfg) (st : St) : LexRes Str :=
  if peek cfg st 0 = some '(' then
    match scanGo cfg ')' (cfg.input.length - (st.pos + 1)) [] (st.pos + 1) with
    | (some s, p) => .ok s ⟨p, st.meta⟩
    | (none, p) => .err .unterminatedParenValue ⟨p, st.meta⟩
  else .err .notParenthesized st

/-- Loop of `#parseUnquotedString`: scan until `:` (not preceded by `\`),
`(`, `)` or whitespace, turning `\:` into a literal colon. -/
def unquotedGo (cfg : Cfg) : Nat → Str → Nat → (Str × Nat)
  | 0, acc, p => (acc, p)
  | fuel + 1, acc, p =>
    match cfg.input.get? p with
    | none => (acc, p)
    | some c =>
      if (c = ':' ∧ peekP cfg p (-1) ≠ some '\\') ∨ c = '(' ∨ c = ')' ∨ isWs c then
        (acc, p)
      else if c = '\\' ∧ peekP cfg p 1 = some ':' then
        unquotedGo cfg fuel (acc ++ [':']) (p + 2)
      else unquotedGo cfg fuel (acc ++ [c]) (p + 1)

/-- `this.#parseUnquotedString()` (never throws; the result is trimmed). -/
def parseUnquotedString (cfg : Cfg) (st : St) : Str × St :=
  let r := unquotedGo cfg (cfg.input.length - st.pos) [] st.pos
  (trimChars r.1, ⟨r.2, st.meta⟩)

/-- Loop of `#countSameCharsAhead` (which backs up and restores the cursor,
so it is a pure count): consume a character; while it equals `c`, count it,
skip whitespace, and consume again. -/
def countGo (cfg : Cfg) (c : Char) : Nat → Nat → Nat → Nat
  | 0, _, k => k
  | fuel + 1, p, k =>
    match cfg.input.get? p with
    | some ch =>
      if ch = c then
        countGo cfg c fuel (consumeWsGo cfg (cfg.input.length - (p + 1)) (p + 1)) (k + 1)
      else k
    | none => k

/-- `this.#countSameCharsAhead(char)`. -/
def countSameCharsAhead (cfg : Cfg) (c : Char) (st : St) : Nat :=
  countGo cfg c (cfg.input.length + 1 - st.pos) st.pos 0

/-! ### Join-operator matching (`#parseConditionOperator`) -/

/-- `/^and /i.test(remaining)` (note: a literal space, not `\s`). -/
def matchAndSp : Str → Bool
  | a :: n :: d :: sp :: _ =>
    (a == 'a' || a == 'A') && (n == 'n' || n == 'N') && (d == 'd' || d == 'D') && sp == ' '
  | _ => false

/-- `/^or /i.test(remaining)`. -/
def matchOrSp : Str → Bool
  | o :: r :: sp :: _ =>
    (o == 'o' || o == 'O') && (r == 'r' || r == 'R') && sp == ' '
  | _ => false

/-- Length of the leading whitespace run. -/
def wsRunLen : Str → Nat
  | [] => 0
  | c :: rest => if isWs c then wsRunLen rest + 1 else 0

/-- Does the list start with `not`, case-insensitively? -/
def startsWithNotCI : Str → Bool
  | n :: o :: t :: _ =>
    (n == 'n' || n == 'N') && (o == 'o' || o == 'O') && (t == 't' || t == 'T')
  | _ => false

/-- Does `/\s*not\s+/i` match at the head of `l`, and if so with which length?
(The regex engine cannot shorten the greedy `\s*` run: any shorter run would
have to start `not` on a whitespace character.) -/
def notMatchLen (l : Str) : Option Nat :=
  let k := wsRunLen l
  let rest := l.drop k
  if startsWithNotCI rest then
    match rest.drop 3 with
    | c :: rest₂ => if isWs c then some (k + 3 + (wsRunLen rest₂ + 1)) else none
    | [] => none
  else none

/-- The length of the first (leftmost) match of `/\s*not\s+/i` in `l`, i.e. the
`_isNotAhead(remaining)[0].length` of the source (only the length of the match
is used by the source; its index is ignored). -/
def firstNotLen : Str → Option Nat
  | [] => none
  | c :: t =>
    match notMatchLen (c :: t) with
    | some r => some r
    | none => firstNotLen t

/-- `this.#parseConditionOperator(openingParenthesesLevel)`: skip whitespace,
match `and ` / `or ` case-insensitively (then search the whole remaining input
for `/\s*not\s+/i` and, when found, advance by its length minus one and yield
`andNot`/`orNot`); when neither keyword matches and an opening level was
supplied, compare it against the run of closing parentheses ahead. -/
def parseConditionOperator (cfg : Cfg) (lvl : Option Nat) (st : St) : LexRes (Option JoinOp) :=
  let st₁ := consumeWhitespace cfg st
  let remaining := cfg.input.drop st₁.pos
  if matchAndSp remaining then
    match firstNotLen remaining with
    | some L => .ok (some .andNot) ⟨st₁.pos + 4 + (L - 1), st₁.meta⟩
    | none => .ok (some .and) ⟨st₁.pos + 4, st₁.meta⟩
  else if matchOrSp remaining then
    match firstNotLen remaining with
    | some L => .ok (some .orNot) ⟨st₁.pos + 3 + (L - 1), st₁.meta⟩
    | none => .ok (some .or) ⟨st₁.pos + 3, st₁.meta⟩
  else
    match lvl with
    | some preLevel =>
      let postLevel := countSameCharsAhead cfg ')' st₁
      if preLevel ≠ postLevel then .err (.parenLevelMismatch preLevel postLevel) st₁
      else .ok none st₁
    | none => .ok none st₁

/-! ### Expression (leaf) parsing (`#parseBasicExpression`) -/

/-- The placeholder leaf `{ key: "1", operator: this.#defaultOperator, value: "1" }`
substituted when the pre-add hook returns a falsy value. -/
def placeholderExpr (cfg : Cfg) : Expr :=
  ⟨['1'], cfg.defaultOperator, ['1']⟩

/-- `this.#transform?.(raw) ?? raw`. -/
def transformApply (cfg : Cfg) (raw : Expr) : Expr :=
  match cfg.transform raw with
  | some e => e
  | none => raw

/-- The pre-add hook step: when a hook is installed, its result replaces the
candidate, and a falsy result is replaced by the placeholder leaf (the node is
never dropped). -/
def hookApply (cfg : Cfg) (cand : Expr) : Expr :=
  match cfg.preAddHook with
  | none => cand
  | some hk =>
    match hk cand with
    | some e => e
    | none => placeholderExpr cfg

/-- The tail of `#parseBasicExpression` after `key`, `operator` and `value`
have been scanned: apply transform and pre-add hook, record the emitted leaf in
the metadata accumulators, and push `{expression, operator: currentOperator,
condition: undefined}`. -/
def finishBasic (cfg : Cfg) (out : Nodes) (currentOperator : JoinOp)
    (key op value : Str) (st : St) : PRes :=
  let e := hookApply cfg (transformApply cfg ⟨key, op, value⟩)
  .ok (out ++ [.leaf currentOperator e]) ⟨st.pos, metaAdd st.meta e⟩

/-- The three-way literal dispatch used in the two value positions of
`#parseBasicExpression`: parenthesized, quoted, or unquoted. -/
def parseValueLiteral (cfg : Cfg) (st : St) : LexRes Str :=
  if peek cfg st 0 = some '(' then parseParenthesizedValue cfg st
  else if isQuoteAhead cfg st then parseQuotedString cfg st
  else
    let r := parseUnquotedString cfg st
    .ok r.1 r.2

/-- The two-way literal dispatch used in the key position of
`#parseBasicExpression`: quoted or unquoted (never parenthesized). -/
def parseKeyLiteral (cfg : Cfg) (st : St) : LexRes Str :=
  if isQuoteAhead cfg st then parseQuotedString cfg st
  else
    let r := parseUnquotedString cfg st
    .ok r.1 r.2

/-- `this.#parseBasicExpression(out, currentOperator)`: parse
`key ':' literal [':' literal]`.  On `Expected colon after key` and on
`Operator cannot be a parenthesized expression` the cursor is restored to the
start of the expression before the throw; errors of the nested literal
scanners propagate with their own cursor position. -/
def parseBasicExpression (cfg : Cfg) (out : Nodes) (currentOperator : JoinOp)
    (st : St) : PRes :=
  let startPos := st.pos
  match parseKeyLiteral cfg st with
  | .err e st₁ => .err out e st₁
  | .ok key st₁ =>
    let st₂ := consumeWhitespace cfg st₁
    let c₂ := consumeP cfg st₂.pos
    if c₂.1 ≠ some ':' then .err out .expectedColon ⟨startPos, st₂.meta⟩
    else
      let st₃ := consumeWhitespace cfg ⟨c₂.2, st₂.meta⟩
      let wasParenthesized := peek cfg st₃ 0 == some '('
      match parseValueLiteral cfg st₃ with
      | .err e st₄ => .err out e st₄
      | .ok value₁ st₄ =>
        let st₅ := consumeWhitespace cfg st₄
        if peek cfg st₅ 0 = some ':' then
          if wasParenthesized then
            .err out .parenthesizedOperatorNotAllowed ⟨startPos, st₅.meta⟩
          else
            let st₆ := consumeWhitespace cfg ⟨st₅.pos + 1, st₅.meta⟩
            match parseValueLiteral cfg st₆ with
            | .err e st₇ => .err out e st₇
            | .ok value₂ st₇ => finishBasic cfg out currentOperator key value₁ value₂ st₇
        else finishBasic cfg out currentOperator key cfg.defaultOperator value₁ st₅

/-! ### Grammar layer (`#parseCondition` / `#parseTerm` /
`#parseParenthesizedExpression`) -/

/-- `out.at(-1)!.operator` (the source never reads it on an empty `out`). -/
def lastOp : Nodes → JoinOp
  | [] => JoinOp.and
  | [n] => n.operator
  | _ :: rest => lastOp rest

/-- `out.at(-1)!.operator = j` (the source never writes it on an empty `out`). -/
def setLastOp : Nodes → JoinOp → Nodes
  | [], _ => []
  | [n], j => [n.withOperator j]
  | n :: rest, j => n :: setLastOp rest j

/-- The call tags of the mutually recursive grammar procedures:
`#parseCondition` entry, the subsequent-terms loop inside `#parseCondition`,
`#parseTerm`, and `#parseParenthesizedExpression`. -/
inductive Call where
  | condition (out : Nodes) (op : JoinOp) (lvl : Option Nat)
  | condLoop (out : Nodes) (op : JoinOp) (lvl : Option Nat)
  | term (out : Nodes) (op : JoinOp)
  | paren (out : Nodes) (op : JoinOp)

/-- The mutually recursive grammar layer as one fuel-indexed function (one fuel
unit per call, `none` on exhaustion; `runFuel_sufficient` below shows the fuel
used by `parse` never exhausts):

* `term`: skip whitespace, dispatch on `(` to the parenthesized expression or
  the basic expression;
* `paren`: remember the position of the `(`, consume it, push a group node with
  an empty nested sequence, recurse into it (without an opening level), then
  require a literal `)` — if absent, restore the cursor to the `(` and throw;
  on any error the pushed group (with the nodes the recursive call already
  appended to it) stays in the output;
* `condition`: skip whitespace, parse a first term, then enter the loop;
* `condLoop`: skip whitespace, run `#parseConditionOperator`; when no keyword
  matched, either stop (at end of input or before `)`), or fall back to the
  implicit `and`; then overwrite the previous node's operator with the
  recognized operator, parse the next term (restoring the previous operator
  field of the then-last node if it throws), and repeat. -/
def run (cfg : Cfg) : Nat → Call → St → Option PRes
  | 0, _, _ => none
  | fuel + 1, c, st =>
    match c with
    | .term out op =>
      let st₁ := consumeWhitespace cfg st
      if peek cfg st₁ 0 = some '(' then run cfg fuel (.paren out op) st₁
      else some (parseBasicExpression cfg out op st₁)
    | .paren out op =>
      let startPos := st.pos
      let st₁ := consumeWhitespace cfg ⟨(consumeP cfg st.pos).2, st.meta⟩
      match run cfg fuel (.condition [] op none) st₁ with
      | none => none
      | some (.err cs e st₂) => some (.err (out ++ [.group op cs]) e st₂)
      | some (.ok cs st₂) =>
        let st₃ := consumeWhitespace cfg st₂
        if peek cfg st₃ 0 = some ')' then
          some (.ok (out ++ [.group op cs]) ⟨st₃.pos + 1, st₃.meta⟩)
        else some (.err (out ++ [.group op cs]) .expectedClosingParen ⟨startPos, st₃.meta⟩)
    | .condition out op lvl =>
      let st₁ := consumeWhitespace cfg st
      match run cfg fuel (.term out op) st₁ with
      | none => none
      | some (.err out₁ e st₂) => some (.err out₁ e st₂)
      | some (.ok out₁ st₂) => run cfg fuel (.condLoop out₁ op lvl) st₂
    | .condLoop out _op lvl =>
      let st₁ := consumeWhitespace cfg st
      match parseConditionOperator cfg lvl st₁ with
      | .err e st₂ => some (.err out e st₂)
      | .ok jopt st₂ =>
        let step : JoinOp → St → Option PRes := fun j stA =>
          let prevBkp := lastOp out
          match run cfg fuel (.term (setLastOp out j) j) stA with
          | none => none
          | some (.ok out₂ st₄) => run cfg fuel (.condLoop out₂ j lvl) st₄
          | some (.err out₂ e st₄) => some (.err (setLastOp out₂ prevBkp) e st₄)
        match jopt with
        | some j => step j st₂
        | none =>
          let st₃ := consumeWhitespace cfg st₂
          if st₃.pos < cfg.input.length ∧ peek cfg st₃ 0 ≠ some ')' then step .and st₃
          else some (.ok out st₃)

/-- One iteration of the subsequent-terms loop of `#parseCondition`, with the
recursive entry point abstracted: back up the last node's `operator`, overwrite
it with the recognized operator, parse a term (restoring the backup on the
then-last node if the term throws), and otherwise continue the loop. -/
def condStep (rec : Call → St → Option PRes) (out : Nodes) (j : JoinOp)
    (lvl : Option Nat) (stA : St) : Option PRes :=
  let prevBkp := lastOp out
  match rec (.term (setLastOp out j) j) stA with
  | none => none
  | some (.ok out₂ st₄) => rec (.condLoop out₂ j lvl) st₄
  | some (.err out₂ e st₄) => some (.err (setLastOp out₂ prevBkp) e st₄)

/-- The `condLoop` branch of `run`, restated through `condStep` (definitional). -/
theorem run_condLoop_eq (cfg : Cfg) (fuel : Nat) (out : Nodes) (op : JoinOp)
    (lvl : Option Nat) (st : St) :
    run cfg (fuel + 1) (.condLoop out op lvl) st =
      (match parseConditionOperator cfg lvl (consumeWhitespace cfg st) with
       | .err e st₂ => some (.err out e st₂)
       | .ok jopt st₂ =>
         match jopt with
         | some j => condStep (run cfg fuel) out j lvl st₂
         | none =>
           if (consumeWhitespace cfg st₂).pos < cfg.input.length ∧
              peek cfg (consumeWhitespace cfg st₂) 0 ≠ some ')' then
             condStep (run cfg fuel) out .and lvl (consumeWhitespace cfg st₂)
           else some (.ok out (consumeWhitespace cfg st₂))) := rfl

/-- `this.#parseTerm(out, currentOperator)`. -/
def parseTerm (cfg : Cfg) (fuel : Nat) (out : Nodes) (op : JoinOp) (st : St) : Option PRes :=
  run cfg fuel (.term out op) st

/-- `this.#parseParenthesizedExpression(out, currentOperator)`. -/
def parseParenthesizedExpression (cfg : Cfg) (fuel : Nat) (out : Nodes) (op : JoinOp)
    (st : St) : Option PRes :=
  run cfg fuel (.paren out op) st

/-- `this.#parseCondition(out, conditionOperator, openingParenthesesLevel)`. -/
def parseCondition (cfg : Cfg) (fuel : Nat) (out : Nodes) (op : JoinOp) (lvl : Option Nat)
    (st : St) : Option PRes :=
  run cfg fuel (.condition out op lvl) st

/-! ### Top-level driver (`ConditionParser.parse`) -/

/-- The `meta` record of the parse result (`Set`s spread into arrays, the
stringified expression triples parsed back into `{key, operator, value}`
objects). -/
structure MetaOut where
  keys : List Str
  operators : List Str
  values : List Str
  expressions : List Expr
deriving DecidableEq, Repr

def metaOut (m : MetaAcc) : MetaOut :=
  ⟨m.keys, m.operators, m.values, m.expressions.map (fun t => ⟨t.1, t.2.1, t.2.2⟩)⟩

/-- The record returned by `ConditionParser.parse`. -/
structure ParseResult where
  parsed : Nodes
  unparsed : Str
  meta : MetaOut
deriving Repr

/-- The constructor: `input` is trimmed. -/
def mkCfg (input : Str) (defaultOperator : Str) (transform : Expr → Option Expr)
    (preAddHook : Option (Expr → Option Expr)) : Cfg :=
  ⟨trimChars input, defaultOperator, transform, preAddHook⟩

/-- Fuel for the top-level `run` call.  `runFuel_sufficient` proves this is
enough for every input, so the fuel is a proof artifact only. -/
def FUEL (cfg : Cfg) : Nat := 3 * cfg.input.length + 4

/-- The top-level call: one condition sequence with join context `and` and the
initial run of opening parentheses as the level. -/
def initialCall (cfg : Cfg) : Call :=
  .condition [] .and (some (countSameCharsAhead cfg '(' ⟨0, .empty⟩))

/-- `ConditionParser.parse(input, options)`: trim, compute the opening level,
parse one condition; any failure below is caught exactly once here, keeping the
already-pushed nodes and turning the input from the failure cursor on into
`unparsed`.  (The `none` fuel branch is unreachable by `runFuel_sufficient`.)
`runParse` is the guarded top-level call (the body of the `try`). -/
def runParse (cfg : Cfg) : Option PRes :=
  run cfg (FUEL cfg) (initialCall cfg) ⟨0, .empty⟩

def parse (input : Str) (defaultOperator : Str) (transform : Expr → Option Expr)
    (preAddHook : Option (Expr → Option Expr)) : ParseResult :=
  let cfg := mkCfg input defaultOperator transform preAddHook
  match runParse cfg with
  | some (.ok out st) => ⟨out, [], metaOut st.meta⟩
  | some (.err out _ st) => ⟨out, cfg.input.drop st.pos, metaOut st.meta⟩
  | none => ⟨[], cfg.input, metaOut .empty⟩

/-- `parse` with all options left at their defaults
(`defaultOperator = "eq"`, identity transform, no pre-add hook). -/
def parseD (input : Str) : ParseResult :=
  parse input "eq".data (fun e => some e) none

/-! ### Reference definitions used by the claim statements -/

/-- The leaf expressions of an output sequence, in the order they were pushed
(depth-first, left to right — the emission order of `#parseBasicExpression`). -/
def leaves : Nodes → List Expr
  | [] => []
  | .leaf _ e :: rest => e :: leaves rest
  | .group _ cs :: rest => leaves cs ++ leaves rest

/-- Remove duplicates keeping the first occurrence of each element (the
insertion-order semantics of a JS `Set` built by repeated `add`). -/
def dedupFirst {α : Type} [DecidableEq α] : List α → List α
  | [] => []
  | x :: xs => x :: dedupFirst (xs.filter (fun y => y ≠ x))
termination_by l => l.length
decreasing_by
  simp only [List.length_cons]
  exact Nat.lt_succ_of_le (List.length_filter_le _ _)

/-- Reference scanner for the quoted literal, written from the amended claim
C6: scanning left to right, a backslash immediately followed by the quote
character is an escape (the quote is emitted and both characters are
consumed); any other character (in particular a backslash not followed by the
quote) is emitted as-is; the first quote character not consumed by an escape
closes the literal.  Returns the content and the number of characters consumed
including the closing quote, or `none` when the input ends without a close. -/
def quotedScanRef (q : Char) : Str → Option (Str × Nat)
  | [] => none
  | c :: rest =>
    if c = q then some ([], 1)
    else if c = '\\' then
      match rest with
      | [] => none
      | d :: rest' =>
        if d = q then (quotedScanRef q rest').map (fun r => (q :: r.1, r.2 + 2))
        else (quotedScanRef q (d :: rest')).map (fun r => ('\\' :: r.1, r.2 + 1))
    else (quotedScanRef q rest).map (fun r => (c :: r.1, r.2 + 1))

/-- Modelled from the claim wording of C6 ("until the same quote character
reappears not preceded by an unescaped backslash"): left to right, a double
backslash is an escaped backslash (both consumed), a backslash immediately
before the quote escapes the quote (both consumed), and a remaining bare
quote closes the literal; `false` means the literal never closes. -/
def specQuotedTerminates (q : Char) : Str → Bool
  | [] => false
  | '\\' :: c :: rest =>
    if c = q ∨ c = '\\' then specQuotedTerminates q rest
    else specQuotedTerminates q (c :: rest)
  | c :: rest => if c = q then true else specQuotedTerminates q rest

/-! ### Component lemmas: cursor bounds, metadata preservation -/

/-- The state carried by a lexical result (on either channel). -/
def LexRes.st {α : Type} : LexRes α → St
  | .ok _ s => s
  | .err _ s => s

/-- The output list carried by a grammar result (on either channel). -/
def PRes.out : PRes → Nodes
  | .ok o _ => o
  | .err o _ _ => o

/-- The state carried by a grammar result (on either channel). -/
def PRes.st : PRes → St
  | .ok _ s => s
  | .err _ _ s => s

def PRes.isOk : PRes → Bool
  | .ok _ _ => true
  | .err _ _ _ => false

/-- The `out` argument of a grammar call. -/
def Call.out : Call → Nodes
  | .condition o _ _ => o
  | .condLoop o _ _ => o
  | .term o _ => o
  | .paren o _ => o

/-- Cursor/metadata facts shared by every parsing step: the cursor never moves
backwards past the step's entry position, it stays within the input, and this
step's netto metadata change is an explicit list of `metaAdd` records. -/
def StepSt (cfg : Cfg) (st st' : St) : Prop :=
  st.pos ≤ st'.pos ∧ (st.pos ≤ cfg.input.length → st'.pos ≤ cfg.input.length)

theorem get?_some_lt {α : Type} {l : List α} {n : Nat} {a : α}
    (h : l.get? n = some a) : n < l.length := by
  by_contra hn
  push_neg at hn
  rw [List.get?_eq_none.mpr hn] at h
  cases h

theorem peekP_zero (cfg : Cfg) (p : Nat) : peekP cfg p 0 = cfg.input.get? p := by
  simp only [peekP]
  rw [if_neg (by omega)]
  congr 1

theorem peekP_one (cfg : Cfg) (p : Nat) : peekP cfg p 1 = cfg.input.get? (p + 1) := by
  simp only [peekP]
  rw [if_neg (by omega)]
  congr 1

theorem consumeWsGo_ge (cfg : Cfg) : ∀ fuel p, p ≤ consumeWsGo cfg fuel p := by
  intro fuel
  induction fuel with
  | zero => intro p; simp [consumeWsGo]
  | succ n ih =>
    intro p
    simp only [consumeWsGo]
    cases h : cfg.input.get? p with
    | none => exact Nat.le_refl p
    | some c =>
      by_cases hw : isWs c
      · simp only [hw, if_true]
        exact Nat.le_trans (Nat.le_succ p) (ih (p + 1))
      · simp [hw]

theorem consumeWsGo_le (cfg : Cfg) : ∀ fuel p, p ≤ cfg.input.length →
    consumeWsGo cfg fuel p ≤ cfg.input.length := by
  intro fuel
  induction fuel with
  | zero => intro p hp; simpa [consumeWsGo] using hp
  | succ n ih =>
    intro p hp
    simp only [consumeWsGo]
    cases h : cfg.input.get? p with
    | none => exact hp
    | some c =>
      by_cases hw : isWs c
      · simp only [hw, if_true]
        exact ih (p + 1) (get?_some_lt h)
      · simp [hw, hp]

theorem consumeWhitespace_step (cfg : Cfg) (st : St) :
    StepSt cfg st (consumeWhitespace cfg st) ∧ (consumeWhitespace cfg st).meta = st.meta :=
  ⟨⟨consumeWsGo_ge cfg _ _, fun h => consumeWsGo_le cfg _ _ h⟩, rfl⟩

theorem consumeWhitespace_pos_ge (cfg : Cfg) (st : St) :
    st.pos ≤ (consumeWhitespace cfg st).pos :=
  consumeWsGo_ge cfg _ _

theorem consumeWhitespace_pos_le (cfg : Cfg) (st : St) (h : st.pos ≤ cfg.input.length) :
    (consumeWhitespace cfg st).pos ≤ cfg.input.length :=
  consumeWsGo_le cfg _ _ h

theorem scanGo_snd (cfg : Cfg) (close : Char) : ∀ fuel acc p,
    p ≤ (scanGo cfg close fuel acc p).2 ∧
    (p ≤ cfg.input.length → (scanGo cfg close fuel acc p).2 ≤ cfg.input.length) := by
  intro fuel
  induction fuel with
  | zero => intro acc p; exact ⟨Nat.le_refl p, fun h => h⟩
  | succ n ih =>
    intro acc p
    simp only [scanGo]
    split
    · exact ⟨Nat.le_refl p, fun h => h⟩
    · rename_i c h
      have hlt : p < cfg.input.length := get?_some_lt h
      split
      · exact ⟨Nat.le_succ p, fun _ => hlt⟩
      · split
        · rename_i h₁ h₂
          have h₂' : cfg.input.get? (p + 1) = some close := by
            rw [← peekP_one]; exact h₂.2
          have hlt₂ : p + 1 < cfg.input.length := get?_some_lt h₂'
          exact ⟨Nat.le_trans (by omega) (ih _ (p + 2)).1, fun _ => (ih _ (p + 2)).2 hlt₂⟩
        · exact ⟨Nat.le_trans (Nat.le_succ p) (ih _ (p + 1)).1, fun _ => (ih _ (p + 1)).2 hlt⟩

theorem parseQuotedString_step (cfg : Cfg) (st : St) :
    StepSt cfg st (parseQuotedString cfg st).st ∧
    (parseQuotedString cfg st).st.meta = st.meta := by
  unfold parseQuotedString
  cases hq : peek cfg st 0 with
  | none => exact ⟨⟨Nat.le_refl _, fun h => h⟩, rfl⟩
  | some q =>
    by_cases hqq : q = '\'' ∨ q = '"'
    · simp only [hqq, if_true]
      have hlt : st.pos < cfg.input.length := by
        have : cfg.input.get? st.pos = some q := by rw [← peekP_zero]; exact hq
        exact get?_some_lt this
      have h := scanGo_snd cfg q (cfg.input.length - (st.pos + 1)) [] (st.pos + 1)
      cases hs : scanGo cfg q (cfg.input.length - (st.pos + 1)) [] (st.pos + 1) with
      | mk fst snd =>
        rw [hs] at h
        cases fst with
        | some s =>
          exact ⟨⟨Nat.le_trans (Nat.le_succ _) h.1, fun _ => h.2 hlt⟩, rfl⟩
        | none =>
          exact ⟨⟨Nat.le_trans (Nat.le_succ _) h.1, fun _ => h.2 hlt⟩, rfl⟩
    · simp only [hqq, if_false]
      exact ⟨⟨Nat.le_refl _, fun h => h⟩, rfl⟩

theorem parseParenthesizedValue_step (cfg : Cfg) (st : St) :
    StepSt cfg st (parseParenthesizedValue cfg st).st ∧
    (parseParenthesizedValue cfg st).st.meta = st.meta := by
  unfold parseParenthesizedValue
  by_cases hq : peek cfg st 0 = some '('
  · simp only [hq, if_true]
    have hlt : st.pos < cfg.input.length := by
      have : cfg.input.get? st.pos = some '(' := by rw [← peekP_zero]; exact hq
      exact get?_some_lt this
    have h := scanGo_snd cfg ')' (cfg.input.length - (st.pos + 1)) [] (st.pos + 1)
    cases hs : scanGo cfg ')' (cfg.input.length - (st.pos + 1)) [] (st.pos + 1) with
    | mk fst snd =>
      rw [hs] at h
      cases fst with
      | some s => exact ⟨⟨Nat.le_trans (Nat.le_succ _) h.1, fun _ => h.2 hlt⟩, rfl⟩
      | none => exact ⟨⟨Nat.le_trans (Nat.le_succ _) h.1, fun _ => h.2 hlt⟩, rfl⟩
  · simp only [hq, if_false]
    exact ⟨⟨Nat.le_refl _, fun h => h⟩, rfl⟩

theorem unquotedGo_snd (cfg : Cfg) : ∀ fuel acc p,
    p ≤ (unquotedGo cfg fuel acc p).2 ∧
    (p ≤ cfg.input.length → (unquotedGo cfg fuel acc p).2 ≤ cfg.input.length) := by
  intro fuel
  induction fuel with
  | zero => intro acc p; exact ⟨Nat.le_refl p, fun h => h⟩
  | succ n ih =>
    intro acc p
    simp only [unquotedGo]
    split
    · exact ⟨Nat.le_refl p, fun h => h⟩
    · rename_i c h
      have hlt : p < cfg.input.length := get?_some_lt h
      split
      · exact ⟨Nat.le_refl p, fun h => h⟩
      · split
        · rename_i h₁ h₂
          have h₂' : cfg.input.get? (p + 1) = some ':' := by
            rw [← peekP_one]; exact h₂.2
          have hlt₂ : p + 1 < cfg.input.length := get?_some_lt h₂'
          exact ⟨Nat.le_trans (by omega) (ih _ (p + 2)).1, fun _ => (ih _ (p + 2)).2 hlt₂⟩
        · exact ⟨Nat.le_trans (Nat.le_succ p) (ih _ (p + 1)).1, fun _ => (ih _ (p + 1)).2 hlt⟩

theorem parseUnquotedString_step (cfg : Cfg) (st : St) :
    StepSt cfg st (parseUnquotedString cfg st).2 ∧
    (parseUnquotedString cfg st).2.meta = st.meta := by
  have h := unquotedGo_snd cfg (cfg.input.length - st.pos) [] st.pos
  exact ⟨⟨h.1, fun hp => h.2 hp⟩, rfl⟩

theorem parseKeyLiteral_step (cfg : Cfg) (st : St) :
    StepSt cfg st (parseKeyLiteral cfg st).st ∧
    (parseKeyLiteral cfg st).st.meta = st.meta := by
  unfold parseKeyLiteral
  by_cases hq : isQuoteAhead cfg st
  · simp only [hq, if_true]
    exact parseQuotedString_step cfg st
  · simp only [hq, if_false]
    exact parseUnquotedString_step cfg st

theorem parseValueLiteral_step (cfg : Cfg) (st : St) :
    StepSt cfg st (parseValueLiteral cfg st).st ∧
    (parseValueLiteral cfg st).st.meta = st.meta := by
  unfold parseValueLiteral
  by_cases hp : peek cfg st 0 = some '('
  · simp only [hp, if_true]
    exact parseParenthesizedValue_step cfg st
  · simp only [hp, if_false]
    by_cases hq : isQuoteAhead cfg st
    · simp only [hq, if_true]
      exact parseQuotedString_step cfg st
    · simp only [hq, if_false]
      exact parseUnquotedString_step cfg st

theorem wsRunLen_le : ∀ l : Str, wsRunLen l ≤ l.length := by
  intro l
  induction l with
  | nil => simp [wsRunLen]
  | cons c rest ih =>
    simp only [wsRunLen, List.length_cons]
    by_cases h : isWs c
    · rw [if_pos h]; omega
    · rw [if_neg h]; omega

theorem notMatchLen_le {l : Str} {L : Nat} (h : notMatchLen l = some L) : L ≤ l.length := by
  unfold notMatchLen at h
  by_cases hn : startsWithNotCI (l.drop (wsRunLen l))
  · rw [if_pos hn] at h
    cases hr : (l.drop (wsRunLen l)).drop 3 with
    | nil => rw [hr] at h; cases h
    | cons c rest₂ =>
      rw [hr] at h
      dsimp only at h
      by_cases hw : isWs c
      · rw [if_pos hw] at h
        have hL : L = wsRunLen l + 3 + (wsRunLen rest₂ + 1) := (Option.some.inj h).symm
        have h₁ : wsRunLen l ≤ l.length := wsRunLen_le l
        have h₂ : wsRunLen rest₂ ≤ rest₂.length := wsRunLen_le rest₂
        have h₃ : ((l.drop (wsRunLen l)).drop 3).length = l.length - wsRunLen l - 3 := by
          simp only [List.length_drop]
        rw [hr] at h₃
        simp only [List.length_cons] at h₃
        omega
      · rw [if_neg hw] at h; cases h
  · rw [if_neg hn] at h; cases h

theorem firstNotLen_le : ∀ {l : Str} {L : Nat}, firstNotLen l = some L → L ≤ l.length := by
  intro l
  induction l with
  | nil => intro L h; cases h
  | cons c t ih =>
    intro L h
    unfold firstNotLen at h
    cases hm : notMatchLen (c :: t) with
    | some r =>
      rw [hm] at h
      cases h
      exact notMatchLen_le hm
    | none =>
      rw [hm] at h
      exact Nat.le_trans (ih h) (by simp)

theorem matchAndSp_shape {l : Str} (h : matchAndSp l = true) :
    ∃ a n d rest, l = a :: n :: d :: ' ' :: rest ∧
      (a = 'a' ∨ a = 'A') ∧ (n = 'n' ∨ n = 'N') ∧ (d = 'd' ∨ d = 'D') := by
  match l, h with
  | a :: n :: d :: sp :: rest, h =>
    simp only [matchAndSp, Bool.and_eq_true, Bool.or_eq_true, beq_iff_eq] at h
    exact ⟨a, n, d, rest, by rw [h.2], h.1.1.1, h.1.1.2, h.1.2⟩

theorem matchOrSp_shape {l : Str} (h : matchOrSp l = true) :
    ∃ o r rest, l = o :: r :: ' ' :: rest ∧
      (o = 'o' ∨ o = 'O') ∧ (r = 'r' ∨ r = 'R') := by
  match l, h with
  | o :: r :: sp :: rest, h =>
    simp only [matchOrSp, Bool.and_eq_true, Bool.or_eq_true, beq_iff_eq] at h
    exact ⟨o, r, rest, by rw [h.2], h.1.1, h.1.2⟩

/-- `startsWithNotCI` is false when the first character is not `n`/`N`. -/
theorem startsWithNot_false₁ {c : Char} {t : Str} (h : (c == 'n' || c == 'N') = false) :
    startsWithNotCI (c :: t) = false := by
  cases t with
  | nil => rfl
  | cons c₂ t₂ =>
    cases t₂ with
    | nil => rfl
    | cons c₃ t₃ => simp [startsWithNotCI, h]

/-- `startsWithNotCI` is false when the second character is not `o`/`O`. -/
theorem startsWithNot_false₂ {c₁ c₂ : Char} {t : Str} (h : (c₂ == 'o' || c₂ == 'O') = false) :
    startsWithNotCI (c₁ :: c₂ :: t) = false := by
  cases t with
  | nil => rfl
  | cons c₃ t₃ => simp [startsWithNotCI, h]

theorem notMatchLen_cons_none {c : Char} {t : Str} (hws : isWs c = false)
    (hsw : startsWithNotCI (c :: t) = false) : notMatchLen (c :: t) = none := by
  unfold notMatchLen
  have hk : wsRunLen (c :: t) = 0 := by simp [wsRunLen, hws]
  rw [hk]
  simp only [List.drop_zero]
  rw [if_neg (by simp [hsw])]

theorem firstNotLen_cons_skip {c : Char} {t : Str}
    (h : notMatchLen (c :: t) = none) : firstNotLen (c :: t) = firstNotLen t := by
  show (match notMatchLen (c :: t) with
        | some r => some r
        | none => firstNotLen t) = firstNotLen t
  rw [h]

/-- Under a `/^and /i` match, any `/\s*not\s+/i` match in the string begins
after the three keyword characters, so its length is at most `l.length - 3`. -/
theorem matchAndSp_firstNot {l : Str} {L : Nat} (h : matchAndSp l = true)
    (hf : firstNotLen l = some L) : 3 + L ≤ l.length := by
  obtain ⟨a, n, d, rest, hl, ha, hn, hd⟩ := matchAndSp_shape h
  subst hl
  rw [firstNotLen_cons_skip (notMatchLen_cons_none
        (by rcases ha with h' | h' <;> subst h' <;> decide)
        (startsWithNot_false₁ (by rcases ha with h' | h' <;> subst h' <;> decide)))] at hf
  rw [firstNotLen_cons_skip (notMatchLen_cons_none
        (by rcases hn with h' | h' <;> subst h' <;> decide)
        (startsWithNot_false₂ (by rcases hd with h' | h' <;> subst h' <;> decide)))] at hf
  rw [firstNotLen_cons_skip (notMatchLen_cons_none
        (by rcases hd with h' | h' <;> subst h' <;> decide)
        (startsWithNot_false₁ (by rcases hd with h' | h' <;> subst h' <;> decide)))] at hf
  have := firstNotLen_le hf
  simp only [List.length_cons] at this ⊢
  omega

/-- Under a `/^or /i` match, any `/\s*not\s+/i` match in the string begins
after the two keyword characters, so its length is at most `l.length - 2`. -/
theorem matchOrSp_firstNot {l : Str} {L : Nat} (h : matchOrSp l = true)
    (hf : firstNotLen l = some L) : 2 + L ≤ l.length := by
  obtain ⟨o, r, rest, hl, ho, hr⟩ := matchOrSp_shape h
  subst hl
  rw [firstNotLen_cons_skip (notMatchLen_cons_none
        (by rcases ho with h' | h' <;> subst h' <;> decide)
        (startsWithNot_false₁ (by rcases ho with h' | h' <;> subst h' <;> decide)))] at hf
  rw [firstNotLen_cons_skip (notMatchLen_cons_none
        (by rcases hr with h' | h' <;> subst h' <;> decide)
        (startsWithNot_false₁ (by rcases hr with h' | h' <;> subst h' <;> decide)))] at hf
  have := firstNotLen_le hf
  simp only [List.length_cons] at this ⊢
  omega

@[simp] theorem LexRes.st_ok {α : Type} (v : α) (s : St) : (LexRes.ok v s).st = s := rfl

@[simp] theorem LexRes.st_err {α : Type} (e : PErr) (s : St) : (LexRes.err e s : LexRes α).st = s := rfl

@[simp] theorem PRes.out_ok (o : Nodes) (s : St) : (PRes.ok o s).out = o := rfl

@[simp] theorem PRes.out_err (o : Nodes) (e : PErr) (s : St) : (PRes.err o e s).out = o := rfl

@[simp] theorem PRes.st_of_ok (o : Nodes) (s : St) : (PRes.ok o s).st = s := rfl

@[simp] theorem PRes.st_of_err (o : Nodes) (e : PErr) (s : St) : (PRes.err o e s).st = s := rfl

@[simp] theorem PRes.isOk_ok (o : Nodes) (s : St) : (PRes.ok o s).isOk = true := rfl

@[simp] theorem PRes.isOk_err (o : Nodes) (e : PErr) (s : St) : (PRes.err o e s).isOk = false := rfl

theorem parseConditionOperator_step (cfg : Cfg) (lvl : Option Nat) (st : St) :
    StepSt cfg st (parseConditionOperator cfg lvl st).st ∧
    (parseConditionOperator cfg lvl st).st.meta = st.meta := by
  have hws₁ : st.pos ≤ (consumeWhitespace cfg st).pos := consumeWhitespace_pos_ge cfg st
  have hws₂ : st.pos ≤ cfg.input.length → (consumeWhitespace cfg st).pos ≤ cfg.input.length :=
    consumeWhitespace_pos_le cfg st
  have hdl : (cfg.input.drop (consumeWhitespace cfg st).pos).length
      = cfg.input.length - (consumeWhitespace cfg st).pos := List.length_drop _ _
  simp only [parseConditionOperator]
  split
  · rename_i hA
    split
    · rename_i L hf
      have h3 := matchAndSp_firstNot hA hf
      obtain ⟨a, n, d, rest, hl, -, -, -⟩ := matchAndSp_shape hA
      have h4 : 4 ≤ (cfg.input.drop (consumeWhitespace cfg st).pos).length := by
        rw [hl]; simp
      exact ⟨⟨by simp; omega, fun hp => by simp; omega⟩, rfl⟩
    · obtain ⟨a, n, d, rest, hl, -, -, -⟩ := matchAndSp_shape (by assumption)
      have h4 : 4 ≤ (cfg.input.drop (consumeWhitespace cfg st).pos).length := by
        rw [hl]; simp
      exact ⟨⟨by simp; omega, fun hp => by simp; omega⟩, rfl⟩
  · split
    · rename_i hO
      split
      · rename_i L hf
        have h2 := matchOrSp_firstNot hO hf
        obtain ⟨o, r, rest, hl, -, -⟩ := matchOrSp_shape hO
        have h3 : 3 ≤ (cfg.input.drop (consumeWhitespace cfg st).pos).length := by
          rw [hl]; simp
        exact ⟨⟨by simp; omega, fun hp => by simp; omega⟩, rfl⟩
      · obtain ⟨o, r, rest, hl, -, -⟩ := matchOrSp_shape (by assumption)
        have h3 : 3 ≤ (cfg.input.drop (consumeWhitespace cfg st).pos).length := by
          rw [hl]; simp
        exact ⟨⟨by simp; omega, fun hp => by simp; omega⟩, rfl⟩
    · split
      · split
        · exact ⟨⟨hws₁, hws₂⟩, rfl⟩
        · exact ⟨⟨hws₁, hws₂⟩, rfl⟩
      · exact ⟨⟨hws₁, hws₂⟩, rfl⟩

theorem StepSt.trans {cfg : Cfg} {s₁ s₂ s₃ : St} (h₁ : StepSt cfg s₁ s₂)
    (h₂ : StepSt cfg s₂ s₃) : StepSt cfg s₁ s₃ :=
  ⟨Nat.le_trans h₁.1 h₂.1, fun h => h₂.2 (h₁.2 h)⟩

theorem consumeP_fst_some {cfg : Cfg} {p : Nat} {c : Char}
    (h : (consumeP cfg p).1 = some c) :
    cfg.input.get? p = some c ∧ (consumeP cfg p).2 = p + 1 := by
  unfold consumeP at h ⊢
  cases hg : cfg.input.get? p with
  | none => rw [hg] at h; cases h
  | some c' =>
    rw [hg] at h
    simp only at h
    cases h
    exact ⟨rfl, rfl⟩

/-- Master lemma for `#parseBasicExpression`: it either succeeds, appending
exactly one leaf node built by `transform` + `preAddHook` from the scanned
triple and recording that leaf in the metadata, with the cursor strictly
advanced; or it throws, leaving `out` and the metadata untouched, with the
cursor not before the entry position.  In both cases the cursor stays within
the input. -/
theorem parseBasicExpression_master (cfg : Cfg) (out : Nodes) (op : JoinOp) (st : St) :
    (∃ e st', parseBasicExpression cfg out op st = .ok (out ++ [.leaf op e]) st' ∧
       st'.meta = metaAdd st.meta e ∧ st.pos + 1 ≤ st'.pos ∧
       (st.pos ≤ cfg.input.length → st'.pos ≤ cfg.input.length) ∧
       (∃ cand, e = hookApply cfg (transformApply cfg cand))) ∨
    (∃ er st', parseBasicExpression cfg out op st = .err out er st' ∧
       st'.meta = st.meta ∧ st.pos ≤ st'.pos ∧
       (st.pos ≤ cfg.input.length → st'.pos ≤ cfg.input.length)) := by
  have hkey := parseKeyLiteral_step cfg st
  simp only [parseBasicExpression]
  split
  · rename_i e st₁ hk
    rw [hk] at hkey
    simp only [LexRes.st_err] at hkey
    exact Or.inr ⟨e, st₁, rfl, hkey.2, hkey.1.1, hkey.1.2⟩
  · rename_i key st₁ hk
    rw [hk] at hkey
    simp only [LexRes.st_ok] at hkey
    have hws₂ := consumeWhitespace_step cfg st₁
    have hs₂ : StepSt cfg st (consumeWhitespace cfg st₁) ∧
        (consumeWhitespace cfg st₁).meta = st.meta :=
      ⟨StepSt.trans hkey.1 hws₂.1, by rw [hws₂.2, hkey.2]⟩
    split
    · exact Or.inr ⟨.expectedColon, ⟨st.pos, (consumeWhitespace cfg st₁).meta⟩, rfl, hs₂.2,
        Nat.le_refl _, fun h => h⟩
    · rename_i hc
      push_neg at hc
      obtain ⟨hget, hadv⟩ := consumeP_fst_some hc
      have hlt₂ : (consumeWhitespace cfg st₁).pos < cfg.input.length := get?_some_lt hget
      have hws₃ := consumeWhitespace_step cfg
        ⟨(consumeP cfg (consumeWhitespace cfg st₁).pos).2, (consumeWhitespace cfg st₁).meta⟩
      have hs₃ : (st.pos + 1 ≤ (consumeWhitespace cfg
            ⟨(consumeP cfg (consumeWhitespace cfg st₁).pos).2,
             (consumeWhitespace cfg st₁).meta⟩).pos ∧
          (st.pos ≤ cfg.input.length → (consumeWhitespace cfg
            ⟨(consumeP cfg (consumeWhitespace cfg st₁).pos).2,
             (consumeWhitespace cfg st₁).meta⟩).pos ≤ cfg.input.length)) ∧
          (consumeWhitespace cfg
            ⟨(consumeP cfg (consumeWhitespace cfg st₁).pos).2,
             (consumeWhitespace cfg st₁).meta⟩).meta = st.meta := by
        refine ⟨⟨?_, fun _ => ?_⟩, by rw [hws₃.2]; exact hs₂.2⟩
        · have h₁ : (consumeP cfg (consumeWhitespace cfg st₁).pos).2 ≤
              (consumeWhitespace cfg
                ⟨(consumeP cfg (consumeWhitespace cfg st₁).pos).2,
                 (consumeWhitespace cfg st₁).meta⟩).pos := hws₃.1.1
          have h₂ := hs₂.1.1
          omega
        · refine hws₃.1.2 ?_
          show (consumeP cfg (consumeWhitespace cfg st₁).pos).2 ≤ cfg.input.length
          omega
      split
      · rename_i e st₄ hv
        have hval := parseValueLiteral_step cfg
          (consumeWhitespace cfg
            ⟨(consumeP cfg (consumeWhitespace cfg st₁).pos).2, (consumeWhitespace cfg st₁).meta⟩)
        rw [hv] at hval
        simp only [LexRes.st_err] at hval
        refine Or.inr ⟨e, st₄, rfl, by rw [hval.2]; exact hs₃.2, ?_, ?_⟩
        · exact Nat.le_trans (Nat.le_trans (Nat.le_succ _) hs₃.1.1) hval.1.1
        · exact fun h => hval.1.2 (hs₃.1.2 h)
      · rename_i value₁ st₄ hv
        have hval := parseValueLiteral_step cfg
          (consumeWhitespace cfg
            ⟨(consumeP cfg (consumeWhitespace cfg st₁).pos).2, (consumeWhitespace cfg st₁).meta⟩)
        rw [hv] at hval
        simp only [LexRes.st_ok] at hval
        have hws₅ := consumeWhitespace_step cfg st₄
        have hs₅ : (st.pos + 1 ≤ (consumeWhitespace cfg st₄).pos ∧
            (st.pos ≤ cfg.input.length → (consumeWhitespace cfg st₄).pos ≤ cfg.input.length)) ∧
            (consumeWhitespace cfg st₄).meta = st.meta := by
          refine ⟨⟨?_, fun h => hws₅.1.2 (hval.1.2 (hs₃.1.2 h))⟩,
            by rw [hws₅.2, hval.2]; exact hs₃.2⟩
          exact Nat.le_trans (Nat.le_trans hs₃.1.1 hval.1.1) hws₅.1.1
        split
        · split
          · exact Or.inr ⟨.parenthesizedOperatorNotAllowed,
              ⟨st.pos, (consumeWhitespace cfg st₄).meta⟩, rfl, hs₅.2, Nat.le_refl _, fun h => h⟩
          · rename_i hp hwp
            have hlt₅ : (consumeWhitespace cfg st₄).pos < cfg.input.length := by
              have : cfg.input.get? (consumeWhitespace cfg st₄).pos = some ':' := by
                rw [← peekP_zero]; exact hp
              exact get?_some_lt this
            have hws₆ := consumeWhitespace_step cfg
              ⟨(consumeWhitespace cfg st₄).pos + 1, (consumeWhitespace cfg st₄).meta⟩
            have hs₆ : (st.pos + 1 ≤ (consumeWhitespace cfg
                  ⟨(consumeWhitespace cfg st₄).pos + 1, (consumeWhitespace cfg st₄).meta⟩).pos ∧
                (st.pos ≤ cfg.input.length → (consumeWhitespace cfg
                  ⟨(consumeWhitespace cfg st₄).pos + 1,
                   (consumeWhitespace cfg st₄).meta⟩).pos ≤ cfg.input.length)) ∧
                (consumeWhitespace cfg
                  ⟨(consumeWhitespace cfg st₄).pos + 1,
                   (consumeWhitespace cfg st₄).meta⟩).meta = st.meta := by
              refine ⟨⟨?_, fun _ => hws₆.1.2 (by
                show (consumeWhitespace cfg st₄).pos + 1 ≤ cfg.input.length
                omega)⟩,
                by rw [hws₆.2]; exact hs₅.2⟩
              have h₁ : (consumeWhitespace cfg st₄).pos + 1 ≤
                  (consumeWhitespace cfg
                    ⟨(consumeWhitespace cfg st₄).pos + 1,
                     (consumeWhitespace cfg st₄).meta⟩).pos := hws₆.1.1
              have h₂ := hs₅.1.1
              omega
            split
            · rename_i e st₇ hv₂
              have hval₂ := parseValueLiteral_step cfg
                (consumeWhitespace cfg
                  ⟨(consumeWhitespace cfg st₄).pos + 1, (consumeWhitespace cfg st₄).meta⟩)
              rw [hv₂] at hval₂
              simp only [LexRes.st_err] at hval₂
              refine Or.inr ⟨e, st₇, rfl, by rw [hval₂.2]; exact hs₆.2, ?_, ?_⟩
              · exact Nat.le_trans (Nat.le_trans (Nat.le_succ _) hs₆.1.1) hval₂.1.1
              · exact fun h => hval₂.1.2 (hs₆.1.2 h)
            · rename_i value₂ st₇ hv₂
              have hval₂ := parseValueLiteral_step cfg
                (consumeWhitespace cfg
                  ⟨(consumeWhitespace cfg st₄).pos + 1, (consumeWhitespace cfg st₄).meta⟩)
              rw [hv₂] at hval₂
              simp only [LexRes.st_ok] at hval₂
              simp only [finishBasic]
              refine Or.inl ⟨hookApply cfg (transformApply cfg ⟨key, value₁, value₂⟩), _,
                rfl, by rw [hval₂.2]; rw [hs₆.2], ?_, ?_,
                ⟨⟨key, value₁, value₂⟩, rfl⟩⟩
              · exact Nat.le_trans hs₆.1.1 hval₂.1.1
              · exact fun h => hval₂.1.2 (hs₆.1.2 h)
        · simp only [finishBasic]
          exact Or.inl ⟨hookApply cfg (transformApply cfg ⟨key, cfg.defaultOperator, value₁⟩), _,
            rfl, by rw [hs₅.2], hs₅.1.1, hs₅.1.2,
            ⟨⟨key, cfg.defaultOperator, value₁⟩, rfl⟩⟩

@[simp] theorem leaves_nil : leaves [] = [] := by simp [leaves]

@[simp] theorem leaves_leaf_cons (op : JoinOp) (e : Expr) (rest : Nodes) :
    leaves (.leaf op e :: rest) = e :: leaves rest := by simp [leaves]

@[simp] theorem leaves_group_cons (op : JoinOp) (cs : Nodes) (rest : Nodes) :
    leaves (.group op cs :: rest) = leaves cs ++ leaves rest := by simp [leaves]

theorem leaves_append : ∀ a b : Nodes, leaves (a ++ b) = leaves a ++ leaves b := by
  intro a
  induction a with
  | nil => intro b; simp
  | cons n rest ih =>
    intro b
    cases n with
    | leaf op e => simp [ih]
    | group op cs => simp [ih]

theorem leaves_setLastOp : ∀ (l : Nodes) (j : JoinOp), leaves (setLastOp l j) = leaves l := by
  intro l
  induction l with
  | nil => intro j; simp [setLastOp]
  | cons n rest ih =>
    intro j
    cases rest with
    | nil =>
      cases n with
      | leaf op e => simp [setLastOp, Node.withOperator]
      | group op cs => simp [setLastOp, Node.withOperator]
    | cons m rest₂ =>
      show leaves (n :: setLastOp (m :: rest₂) j) = leaves (n :: m :: rest₂)
      cases n with
      | leaf op e => simp [ih]
      | group op cs => simp [ih]

theorem consumeP_bounds (cfg : Cfg) (p : Nat) :
    p ≤ (consumeP cfg p).2 ∧ (p ≤ cfg.input.length → (consumeP cfg p).2 ≤ cfg.input.length) := by
  unfold consumeP
  cases hg : cfg.input.get? p with
  | none => exact ⟨Nat.le_refl p, fun h => h⟩
  | some c => exact ⟨Nat.le_succ p, fun _ => get?_some_lt hg⟩

/-- Only the term loop may return `ok` without strictly advancing the cursor. -/
def Call.strictOnOk : Call → Bool
  | .condLoop _ _ _ => false
  | _ => true

/-- Facts that hold for every completed grammar call: the cursor is monotone
and in bounds, the output nodes only grow at the end (`leaves` gains a suffix
`L` of newly emitted leaves), the metadata accumulators receive exactly those
leaves in order, and a completed `term`/`paren`/`condition` strictly advances
the cursor on success. -/
def RunFacts (cfg : Cfg) (c : Call) (st : St) (res : PRes) : Prop :=
  st.pos ≤ res.st.pos ∧
  (st.pos ≤ cfg.input.length → res.st.pos ≤ cfg.input.length) ∧
  (∃ L, leaves res.out = leaves c.out ++ L ∧ res.st.meta = List.foldl metaAdd st.meta L) ∧
  (c.strictOnOk = true → res.isOk = true → st.pos + 1 ≤ res.st.pos)

/-- Facts for one iteration of the subsequent-terms loop (overwrite the last
operator, parse a term, recurse or restore-and-rethrow). -/
theorem condStep_facts (cfg : Cfg) (n : Nat) (out : Nodes) (lvl : Option Nat)
    (j : JoinOp) (stA : St) (res : PRes)
    (ih : ∀ c st res, run cfg n c st = some res → RunFacts cfg c st res)
    (h : condStep (run cfg n) out j lvl stA = some res) :
    stA.pos ≤ res.st.pos ∧
    (stA.pos ≤ cfg.input.length → res.st.pos ≤ cfg.input.length) ∧
    (∃ L, leaves res.out = leaves out ++ L ∧
      res.st.meta = List.foldl metaAdd stA.meta L) := by
  unfold condStep at h
  split at h
  · cases h
  · rename_i out₂ st₄ hterm
    have ft := ih _ _ _ hterm
    have fl := ih _ _ _ h
    obtain ⟨L₁, hL₁, hm₁⟩ := ft.2.2.1
    obtain ⟨L₂, hL₂, hm₂⟩ := fl.2.2.1
    simp only [PRes.out_ok, PRes.st_of_ok, Call.out] at hL₁ hm₁
    simp only [Call.out] at hL₂
    refine ⟨Nat.le_trans ft.1 fl.1, fun hp => fl.2.1 (ft.2.1 hp), L₁ ++ L₂, ?_, ?_⟩
    · rw [hL₂, hL₁, leaves_setLastOp, List.append_assoc]
    · rw [hm₂, hm₁, List.foldl_append]
  · rename_i out₂ e st₄ hterm
    have ft := ih _ _ _ hterm
    obtain ⟨L₁, hL₁, hm₁⟩ := ft.2.2.1
    cases h
    refine ⟨ft.1, ft.2.1, L₁, ?_, hm₁⟩
    simp only [Call.out] at hL₁
    simp only [PRes.out_err, PRes.st_of_err] at hL₁ ⊢
    rw [leaves_setLastOp, hL₁, leaves_setLastOp]

/-- The master lemma for the grammar layer: every completed call satisfies
`RunFacts` (cursor monotone and bounded, output grows by an explicit list of
emitted leaves recorded one-by-one in the metadata, success of a
term/paren/condition strictly advances the cursor). -/
theorem run_facts (cfg : Cfg) : ∀ fuel c st res,
    run cfg fuel c st = some res → RunFacts cfg c st res := by
  intro fuel
  induction fuel with
  | zero => intro c st res h; simp [run] at h
  | succ n ih =>
    intro c st res h
    cases c with
    | term out op =>
      simp only [run] at h
      have hws := consumeWhitespace_step cfg st
      have hws₀ : st.pos ≤ (consumeWhitespace cfg st).pos := hws.1.1
      split at h
      · rename_i hpk
        have f := ih _ _ _ h
        obtain ⟨L, hL, hm⟩ := f.2.2.1
        refine ⟨Nat.le_trans hws₀ f.1, fun hp => f.2.1 (hws.1.2 hp), ⟨L, hL, ?_⟩, ?_⟩
        · rw [hm, hws.2]
        · intro _ hok
          have h₁ := f.2.2.2 rfl hok
          omega
      · have hbasic := parseBasicExpression_master cfg out op (consumeWhitespace cfg st)
        cases hbasic with
        | inl hok =>
          obtain ⟨e, st', heq, hm, hadv, hle, -⟩ := hok
          rw [heq] at h
          cases h
          refine ⟨?_, ?_, ⟨[e], ?_, ?_⟩, ?_⟩
          · simp only [PRes.st_of_ok]
            omega
          · intro hp
            simp only [PRes.st_of_ok]
            exact hle (hws.1.2 hp)
          · simp only [PRes.out_ok, Call.out, leaves_append]
            simp
          · simp only [PRes.st_of_ok]
            rw [hm, hws.2]
            rfl
          · intro _ _
            simp only [PRes.st_of_ok]
            omega
        | inr herr =>
          obtain ⟨er, st', heq, hm, hge, hle⟩ := herr
          rw [heq] at h
          cases h
          refine ⟨?_, ?_, ⟨[], by simp [Call.out], ?_⟩, ?_⟩
          · simp only [PRes.st_of_err]
            omega
          · intro hp
            simp only [PRes.st_of_err]
            exact hle (hws.1.2 hp)
          · simp only [PRes.st_of_err]
            rw [hm, hws.2]
            rfl
          · intro _ hok
            simp at hok
    | paren out op =>
      simp only [run] at h
      have hcp₀ : st.pos ≤ (consumeP cfg st.pos).2 := (consumeP_bounds cfg st.pos).1
      have hcp₁ : st.pos ≤ cfg.input.length → (consumeP cfg st.pos).2 ≤ cfg.input.length :=
        (consumeP_bounds cfg st.pos).2
      have hws₁ := consumeWhitespace_step cfg ⟨(consumeP cfg st.pos).2, st.meta⟩
      have hws₁a : (consumeP cfg st.pos).2 ≤
          (consumeWhitespace cfg ⟨(consumeP cfg st.pos).2, st.meta⟩).pos := hws₁.1.1
      have hws₁b : (consumeP cfg st.pos).2 ≤ cfg.input.length →
          (consumeWhitespace cfg ⟨(consumeP cfg st.pos).2, st.meta⟩).pos ≤ cfg.input.length :=
        hws₁.1.2
      split at h
      · cases h
      · rename_i cs e st₂ hinner
        have f := ih _ _ _ hinner
        obtain ⟨L, hL, hm⟩ := f.2.2.1
        simp only [PRes.out_err, PRes.st_of_err, Call.out, leaves_nil, List.nil_append] at hL hm
        have f₁ : (consumeWhitespace cfg ⟨(consumeP cfg st.pos).2, st.meta⟩).pos ≤ st₂.pos := f.1
        cases h
        refine ⟨?_, ?_, ⟨L, ?_, ?_⟩, ?_⟩
        · simp only [PRes.st_of_err]
          omega
        · intro hp
          simp only [PRes.st_of_err]
          exact f.2.1 (hws₁b (hcp₁ hp))
        · simp only [PRes.out_err, Call.out]
          rw [leaves_append]
          simp [hL]
        · simp only [PRes.st_of_err]
          rw [hm, hws₁.2]
        · intro _ hok
          simp at hok
      · rename_i cs st₂ hinner
        have f := ih _ _ _ hinner
        obtain ⟨L, hL, hm⟩ := f.2.2.1
        simp only [PRes.out_ok, PRes.st_of_ok, Call.out, leaves_nil, List.nil_append] at hL hm
        have f₁ : (consumeWhitespace cfg ⟨(consumeP cfg st.pos).2, st.meta⟩).pos ≤ st₂.pos := f.1
        have f₂ : (consumeWhitespace cfg ⟨(consumeP cfg st.pos).2, st.meta⟩).pos ≤ cfg.input.length
            → st₂.pos ≤ cfg.input.length := f.2.1
        have hws₃ := consumeWhitespace_step cfg st₂
        have hws₃a : st₂.pos ≤ (consumeWhitespace cfg st₂).pos := hws₃.1.1
        split at h
        · rename_i hpk
          cases h
          have hlt : (consumeWhitespace cfg st₂).pos < cfg.input.length := by
            have hg : cfg.input.get? (consumeWhitespace cfg st₂).pos = some ')' := by
              rw [← peekP_zero]; exact hpk
            exact get?_some_lt hg
          refine ⟨?_, ?_, ⟨L, ?_, ?_⟩, ?_⟩
          · simp only [PRes.st_of_ok]
            omega
          · intro hp
            simp only [PRes.st_of_ok]
            omega
          · simp only [PRes.out_ok, Call.out]
            rw [leaves_append]
            simp [hL]
          · simp only [PRes.st_of_ok]
            rw [hws₃.2, hm, hws₁.2]
          · intro _ _
            simp only [PRes.st_of_ok]
            omega
        · cases h
          refine ⟨?_, ?_, ⟨L, ?_, ?_⟩, ?_⟩
          · simp only [PRes.st_of_err]
            exact Nat.le_refl _
          · intro hp
            simp only [PRes.st_of_err]
            exact hp
          · simp only [PRes.out_err, Call.out]
            rw [leaves_append]
            simp [hL]
          · simp only [PRes.st_of_err]
            rw [hws₃.2, hm, hws₁.2]
          · intro _ hok
            simp at hok
    | condition out op lvl =>
      simp only [run] at h
      have hws := consumeWhitespace_step cfg st
      split at h
      · cases h
      · rename_i out₁ e st₂ hterm
        have f := ih _ _ _ hterm
        obtain ⟨L, hL, hm⟩ := f.2.2.1
        simp only [PRes.out_err, PRes.st_of_err, Call.out] at hL hm
        cases h
        refine ⟨?_, ?_, ⟨L, ?_, ?_⟩, ?_⟩
        · simp only [PRes.st_of_err]
          exact Nat.le_trans hws.1.1 f.1
        · intro hp
          simp only [PRes.st_of_err]
          exact f.2.1 (hws.1.2 hp)
        · simpa [Call.out] using hL
        · simp only [PRes.st_of_err]
          rw [hm, hws.2]
        · intro _ hok
          simp at hok
      · rename_i out₁ st₂ hterm
        have ft := ih _ _ _ hterm
        have fl := ih _ _ _ h
        obtain ⟨L₁, hL₁, hm₁⟩ := ft.2.2.1
        obtain ⟨L₂, hL₂, hm₂⟩ := fl.2.2.1
        simp only [PRes.out_ok, PRes.st_of_ok, Call.out] at hL₁ hm₁
        simp only [Call.out] at hL₂
        refine ⟨?_, ?_, ⟨L₁ ++ L₂, ?_, ?_⟩, ?_⟩
        · exact Nat.le_trans hws.1.1 (Nat.le_trans ft.1 fl.1)
        · intro hp
          exact fl.2.1 (ft.2.1 (hws.1.2 hp))
        · simp only [Call.out]
          rw [hL₂, hL₁, List.append_assoc]
        · rw [hm₂, hm₁, hws.2, List.foldl_append]
        · intro _ _
          have hstrict : (consumeWhitespace cfg st).pos + 1 ≤ st₂.pos := ft.2.2.2 rfl (by simp)
          have h₁ : st₂.pos ≤ res.st.pos := fl.1
          have h₂ : st.pos ≤ (consumeWhitespace cfg st).pos := hws.1.1
          omega
    | condLoop out op lvl =>
      rw [run_condLoop_eq] at h
      have hop := parseConditionOperator_step cfg lvl (consumeWhitespace cfg st)
      have hws := consumeWhitespace_step cfg st
      split at h
      · rename_i e st₂ hopq
        rw [hopq] at hop
        simp only [LexRes.st_err] at hop
        cases h
        refine ⟨?_, ?_, ⟨[], by simp [Call.out], ?_⟩, ?_⟩
        · simp only [PRes.st_of_err]
          exact Nat.le_trans hws.1.1 hop.1.1
        · intro hp
          simp only [PRes.st_of_err]
          exact hop.1.2 (hws.1.2 hp)
        · simp only [PRes.st_of_err]
          rw [hop.2, hws.2]
          rfl
        · intro hstrict
          simp [Call.strictOnOk] at hstrict
      · rename_i jopt st₂ hopq
        rw [hopq] at hop
        simp only [LexRes.st_ok] at hop
        have hs₂ : st.pos ≤ st₂.pos ∧ (st.pos ≤ cfg.input.length → st₂.pos ≤ cfg.input.length)
            ∧ st₂.meta = st.meta :=
          ⟨Nat.le_trans hws.1.1 hop.1.1, fun hp => hop.1.2 (hws.1.2 hp),
           by rw [hop.2, hws.2]⟩
        split at h
        · rename_i j
          have hstep := condStep_facts cfg n out lvl j st₂ res ih h
          refine ⟨Nat.le_trans hs₂.1 hstep.1, fun hp => hstep.2.1 (hs₂.2.1 hp),
            ?_, ?_⟩
          · obtain ⟨L, hL, hm⟩ := hstep.2.2
            exact ⟨L, by simpa [Call.out] using hL, by rw [hm, hs₂.2.2]⟩
          · intro hstrict
            simp [Call.strictOnOk] at hstrict
        · have hws₃ := consumeWhitespace_step cfg st₂
          split at h
          · have hstep := condStep_facts cfg n out lvl .and (consumeWhitespace cfg st₂) res ih h
            refine ⟨?_, ?_, ?_, ?_⟩
            · exact Nat.le_trans hs₂.1 (Nat.le_trans hws₃.1.1 hstep.1)
            · intro hp
              exact hstep.2.1 (hws₃.1.2 (hs₂.2.1 hp))
            · obtain ⟨L, hL, hm⟩ := hstep.2.2
              exact ⟨L, by simpa [Call.out] using hL, by rw [hm, hws₃.2, hs₂.2.2]⟩
            · intro hstrict
              simp [Call.strictOnOk] at hstrict
          · cases h
            refine ⟨?_, ?_, ⟨[], by simp [Call.out], ?_⟩, ?_⟩
            · simp only [PRes.st_of_ok]
              exact Nat.le_trans hs₂.1 hws₃.1.1
            · intro hp
              simp only [PRes.st_of_ok]
              exact hws₃.1.2 (hs₂.2.1 hp)
            · simp only [PRes.st_of_ok]
              rw [hws₃.2, hs₂.2.2]
              rfl
            · intro hstrict
              simp [Call.strictOnOk] at hstrict

/-- Rank used for the fuel estimate: a call consumes at most three nested
fuel units (`condition → term → paren`) before the cursor strictly advances. -/
def Call.rank : Call → Nat
  | .paren _ _ => 0
  | .term _ _ => 1
  | .condition _ _ _ => 2
  | .condLoop _ _ _ => 2

@[simp] theorem Call.rank_paren (o : Nodes) (p : JoinOp) : (Call.paren o p).rank = 0 := rfl

@[simp] theorem Call.rank_term (o : Nodes) (p : JoinOp) : (Call.term o p).rank = 1 := rfl

@[simp] theorem Call.rank_condition (o : Nodes) (p : JoinOp) (l : Option Nat) :
    (Call.condition o p l).rank = 2 := rfl

@[simp] theorem Call.rank_condLoop (o : Nodes) (p : JoinOp) (l : Option Nat) :
    (Call.condLoop o p l).rank = 2 := rfl

theorem consumeP_of_get {cfg : Cfg} {p : Nat} {c : Char}
    (h : cfg.input.get? p = some c) : consumeP cfg p = (some c, p + 1) := by
  unfold consumeP
  rw [h]

/-- Sufficiency of the loop-step fuel. -/
theorem condStep_ne_none (cfg : Cfg) (n : Nat) (out : Nodes) (lvl : Option Nat)
    (j : JoinOp) (stA : St)
    (ihs : ∀ c st, st.pos ≤ cfg.input.length →
      (∀ o p, c = .paren o p → peek cfg st 0 = some '(') →
      3 * (cfg.input.length - st.pos) + c.rank + 1 ≤ n → run cfg n c st ≠ none)
    (hA : stA.pos ≤ cfg.input.length)
    (hfuel : 3 * (cfg.input.length - stA.pos) + 2 ≤ n) :
    condStep (run cfg n) out j lvl stA ≠ none := by
  unfold condStep
  have hterm : run cfg n (.term (setLastOp out j) j) stA ≠ none := by
    refine ihs _ _ hA (fun _ _ h => nomatch h) ?_
    simp only [Call.rank_term]
    omega
  cases hres : run cfg n (.term (setLastOp out j) j) stA with
  | none => exact absurd hres hterm
  | some res =>
    cases res with
    | err o e s => simp
    | ok out₂ st₄ =>
      have f := run_facts cfg n _ _ _ hres
      have hst₄ : st₄.pos ≤ cfg.input.length := f.2.1 hA
      have hadv : stA.pos + 1 ≤ st₄.pos := by
        have := f.2.2.2 rfl (by simp)
        simpa using this
      simp only []
      refine ihs _ _ hst₄ (fun _ _ h => nomatch h) ?_
      simp only [Call.rank_condLoop]
      omega

/-- Fuel sufficiency for the grammar layer: with `3·(remaining input) + rank + 1`
fuel units the computation always completes (for a `paren` call an opening
parenthesis must be ahead, which is how the dispatcher calls it). -/
theorem runFuel_sufficient (cfg : Cfg) : ∀ fuel c st,
    st.pos ≤ cfg.input.length →
    (∀ o p, c = .paren o p → peek cfg st 0 = some '(') →
    3 * (cfg.input.length - st.pos) + c.rank + 1 ≤ fuel →
    run cfg fuel c st ≠ none := by
  intro fuel
  induction fuel with
  | zero =>
    intro c st hle hpk hfuel
    omega
  | succ n ih =>
    intro c st hle hpk hfuel
    cases c with
    | term out op =>
      simp only [run]
      have hws := consumeWhitespace_step cfg st
      have hws₀ : st.pos ≤ (consumeWhitespace cfg st).pos := hws.1.1
      have hws₁ : (consumeWhitespace cfg st).pos ≤ cfg.input.length := hws.1.2 hle
      split
      · rename_i hq
        refine ih _ _ hws₁ (fun _ _ _ => hq) ?_
        simp only [Call.rank_paren, Call.rank_term, Call.rank_condition, Call.rank_condLoop] at hfuel ⊢
        omega
      · simp
    | paren out op =>
      simp only [run]
      have hq := hpk out op rfl
      have hget : cfg.input.get? st.pos = some '(' := by rw [← peekP_zero]; exact hq
      have hlt : st.pos < cfg.input.length := get?_some_lt hget
      have hcp : (consumeP cfg st.pos).2 = st.pos + 1 := by rw [consumeP_of_get hget]
      have hws := consumeWhitespace_step cfg ⟨(consumeP cfg st.pos).2, st.meta⟩
      have hwsa : (consumeP cfg st.pos).2 ≤
          (consumeWhitespace cfg ⟨(consumeP cfg st.pos).2, st.meta⟩).pos := hws.1.1
      have hwsb : (consumeWhitespace cfg ⟨(consumeP cfg st.pos).2, st.meta⟩).pos
          ≤ cfg.input.length :=
        hws.1.2 (show (consumeP cfg st.pos).2 ≤ cfg.input.length by omega)
      have hcond : run cfg n (.condition [] op none)
          (consumeWhitespace cfg ⟨(consumeP cfg st.pos).2, st.meta⟩) ≠ none := by
        refine ih _ _ hwsb (fun _ _ h => nomatch h) ?_
        simp only [Call.rank_paren, Call.rank_term, Call.rank_condition, Call.rank_condLoop] at hfuel ⊢
        omega
      cases hres : run cfg n (.condition [] op none)
          (consumeWhitespace cfg ⟨(consumeP cfg st.pos).2, st.meta⟩) with
      | none => exact absurd hres hcond
      | some res =>
        cases res with
        | err o e s => simp
        | ok cs st₂ =>
          simp only []
          split <;> simp
    | condition out op lvl =>
      simp only [run]
      have hws := consumeWhitespace_step cfg st
      have hws₀ : st.pos ≤ (consumeWhitespace cfg st).pos := hws.1.1
      have hws₁ : (consumeWhitespace cfg st).pos ≤ cfg.input.length := hws.1.2 hle
      have hterm : run cfg n (.term out op) (consumeWhitespace cfg st) ≠ none := by
        refine ih _ _ hws₁ (fun _ _ h => nomatch h) ?_
        simp only [Call.rank_paren, Call.rank_term, Call.rank_condition, Call.rank_condLoop] at hfuel ⊢
        omega
      cases hres : run cfg n (.term out op) (consumeWhitespace cfg st) with
      | none => exact absurd hres hterm
      | some res =>
        cases res with
        | err o e s => simp
        | ok out₁ st₂ =>
          have f := run_facts cfg n _ _ _ hres
          have hst₂ : st₂.pos ≤ cfg.input.length := f.2.1 hws₁
          have hadv : (consumeWhitespace cfg st).pos + 1 ≤ st₂.pos := by
            have := f.2.2.2 rfl (by simp)
            simpa using this
          simp only []
          refine ih _ _ hst₂ (fun _ _ h => nomatch h) ?_
          simp only [Call.rank_paren, Call.rank_term, Call.rank_condition, Call.rank_condLoop] at hfuel ⊢
          omega
    | condLoop out op lvl =>
      rw [run_condLoop_eq]
      have hws := consumeWhitespace_step cfg st
      have hws₀ : st.pos ≤ (consumeWhitespace cfg st).pos := hws.1.1
      have hws₁ : (consumeWhitespace cfg st).pos ≤ cfg.input.length := hws.1.2 hle
      have hop := parseConditionOperator_step cfg lvl (consumeWhitespace cfg st)
      cases hoq : parseConditionOperator cfg lvl (consumeWhitespace cfg st) with
      | err e st₂ => simp
      | ok jopt st₂ =>
        rw [hoq] at hop
        simp only [LexRes.st_ok] at hop
        have hst₂ : st₂.pos ≤ cfg.input.length := hop.1.2 hws₁
        have hst₂' : st.pos ≤ st₂.pos := Nat.le_trans hws₀ hop.1.1
        cases jopt with
        | some j =>
          simp only []
          refine condStep_ne_none cfg n out lvl j st₂ ih hst₂ ?_
          simp only [Call.rank_paren, Call.rank_term, Call.rank_condition, Call.rank_condLoop] at hfuel
          omega
        | none =>
          simp only []
          have hws₃ := consumeWhitespace_step cfg st₂
          split
          · refine condStep_ne_none cfg n out lvl .and (consumeWhitespace cfg st₂) ih
              (hws₃.1.2 hst₂) ?_
            have h₁ : st₂.pos ≤ (consumeWhitespace cfg st₂).pos := hws₃.1.1
            simp only [Call.rank_paren, Call.rank_term, Call.rank_condition, Call.rank_condLoop] at hfuel
            omega
          · simp

/-- The top-level `run` never exhausts its fuel. -/
theorem runParse_total (cfg : Cfg) : runParse cfg ≠ none := by
  unfold runParse initialCall
  refine runFuel_sufficient cfg (FUEL cfg) _ ⟨0, .empty⟩ (by simp) (fun _ _ h => nomatch h) ?_
  simp only [Call.rank_condition, FUEL]
  omega

/-- C1: For every input string and every options value, `ConditionParser.parse`
returns a `{parsed, unparsed, meta}` record and never propagates an exception:
the single top-level catch receives every internal failure, keeps the
already-committed nodes in `parsed` as-is, and sets `unparsed` to the substring
of the trimmed input starting at the cursor position at the moment of failure —
hence `unparsed` is always a suffix of the trimmed input (and is `""` when no
failure occurred). -/
theorem c1_parse_never_throws (input dO : Str) (tr : Expr → Option Expr)
    (hk : Option (Expr → Option Expr)) :
    (parse input dO tr hk).unparsed <:+ trimChars input ∧
    ((∃ out st, runParse (mkCfg input dO tr hk) = some (.ok out st) ∧
        parse input dO tr hk = ⟨out, [], metaOut st.meta⟩) ∨
     (∃ out e st, runParse (mkCfg input dO tr hk) = some (.err out e st) ∧
        parse input dO tr hk = ⟨out, (trimChars input).drop st.pos, metaOut st.meta⟩)) := by
  cases hres : runParse (mkCfg input dO tr hk) with
  | none => exact absurd hres (runParse_total _)
  | some res =>
    cases res with
    | ok out st =>
      have hP : parse input dO tr hk = ⟨out, [], metaOut st.meta⟩ := by
        simp only [parse]
        rw [hres]
      exact ⟨by rw [hP]; exact List.nil_suffix, Or.inl ⟨out, st, rfl, hP⟩⟩
    | err out e st =>
      have hP : parse input dO tr hk = ⟨out, (trimChars input).drop st.pos, metaOut st.meta⟩ := by
        simp only [parse]
        rw [hres]
        rfl
      exact ⟨by rw [hP]; exact List.drop_suffix _ _, Or.inr ⟨out, e, st, rfl, hP⟩⟩

/-- C3: When a parenthesized group's recursively parsed body returns but the
next non-whitespace character is not `)`, the cursor is rewound to the group's
opening `(`, the failure propagates, and the group node that was pushed —
together with every node `cs` the recursive call already appended to its
condition array — remains present in the propagated output.  Stated in full
generality over every configuration, fuel, output, operator and state:
(1) whenever the recursive body of `#parseParenthesizedExpression` returns
successfully but the next non-whitespace character is not `)`, the call throws
`ExpectedClosingParen` with the cursor restored to its entry position and the
output extended by the group node carrying all recursively appended children;
(2) `#parseTerm` enters `#parseParenthesizedExpression` exactly at the `(`
character, so the restored entry position of (1) is the group's opening `(`;
(3) whatever error reaches the top-level catch yields `parsed` equal to the
propagated output (retaining the group) and `unparsed` starting exactly at the
failure cursor — hence at the `(`.  (4) exhibits the behavior end-to-end on
`"a:b or (c:d or e:f"`: the unclosed group survives with both of its children,
its operator restored by the loop's catch, and `unparsed` starts at the `(`. -/
theorem c3_unclosed_group_partial_subtree :
    (∀ (cfg : Cfg) (fuel : Nat) (out : Nodes) (op : JoinOp) (st : St)
        (cs : Nodes) (st₂ : St),
        run cfg fuel (.condition [] op none)
            (consumeWhitespace cfg ⟨(consumeP cfg st.pos).2, st.meta⟩) =
          some (.ok cs st₂) →
        peek cfg (consumeWhitespace cfg st₂) 0 ≠ some ')' →
        run cfg (fuel + 1) (.paren out op) st =
          some (.err (out ++ [.group op cs]) .expectedClosingParen
            ⟨st.pos, (consumeWhitespace cfg st₂).meta⟩)) ∧
    (∀ (cfg : Cfg) (fuel : Nat) (out : Nodes) (op : JoinOp) (st : St),
        peek cfg (consumeWhitespace cfg st) 0 = some '(' →
        run cfg (fuel + 1) (.term out op) st =
          run cfg fuel (.paren out op) (consumeWhitespace cfg st)) ∧
    (∀ (input dO : Str) (tr : Expr → Option Expr) (hk : Option (Expr → Option Expr))
        (out : Nodes) (e : PErr) (st : St),
        runParse (mkCfg input dO tr hk) = some (.err out e st) →
        parse input dO tr hk = ⟨out, (trimChars input).drop st.pos, metaOut st.meta⟩) ∧
    parseD "a:b or (c:d or e:f".data =
      ⟨[.leaf .or ⟨"a".data, "eq".data, "b".data⟩,
        .group .and [.leaf .or ⟨"c".data, "eq".data, "d".data⟩,
                     .leaf .or ⟨"e".data, "eq".data, "f".data⟩]],
       "(c:d or e:f".data,
       ⟨["a".data, "c".data, "e".data], ["eq".data], ["b".data, "d".data, "f".data],
        [⟨"a".data, "eq".data, "b".data⟩, ⟨"c".data, "eq".data, "d".data⟩,
         ⟨"e".data, "eq".data, "f".data⟩]⟩⟩ := by
  refine ⟨?_, ?_, ?_, rfl⟩
  · intro cfg fuel out op st cs st₂ hrec hnp
    simp only [run]
    split
    · rename_i heq
      rw [hrec] at heq
      exact Option.noConfusion heq
    · rename_i cs' e' st₂' heq
      rw [hrec] at heq
      injection heq with heq'
      exact PRes.noConfusion heq'
    · rename_i cs' st₂' heq
      rw [hrec] at heq
      injection heq with heq'
      injection heq' with h₁ h₂
      subst h₁
      subst h₂
      rw [if_neg hnp]
  · intro cfg fuel out op st hpeek
    simp only [run]
    rw [if_pos hpeek]
  · intro input dO tr hk out e st h
    simp only [parse]
    rw [h]
    rfl

/-- C4 (code bug): on `"a:b and c:d or not e:f"` the unanchored
`/\s*not\s+/i` search of `#parseConditionOperator` finds the later `" not "`,
so matching the keyword `and` (which is immediately ahead, not followed by
`not`) consumes `"and c:d "` instead of exactly `"and "`: from cursor 3 the
operator parser answers `andNot` with the cursor at 12, and the full parse
silently loses `c:d` — it appears in neither `parsed` nor `unparsed`. -/
theorem c4_and_keyword_overconsumes :
    (∀ m : MetaAcc,
      parseConditionOperator (mkCfg "a:b and c:d or not e:f".data "eq".data
          (fun e => some e) none) (some 0) ⟨3, m⟩ = .ok (some .andNot) ⟨12, m⟩) ∧
    parseD "a:b and c:d or not e:f".data =
      ⟨[.leaf .and ⟨"a".data, "eq".data, "b".data⟩],
       "or not e:f".data,
       ⟨["a".data], ["eq".data], ["b".data], [⟨"a".data, "eq".data, "b".data⟩]⟩⟩ :=
  ⟨fun _ => rfl, rfl⟩

/-- C5: `parse("a:b or c:d or e:f")` returns exactly three leaf nodes whose
`operator` fields — including the last node's — all equal `"or"` (the
forward-edge convention: before appending each subsequent term the previous
node's operator is overwritten with the join operator just recognized).  The
second conjunct exhibits the same overwrite with the implicit `and`:
`"a:b or c:d e:f"` yields operators `or`, `and`, `and`. -/
theorem c5_forward_edge_operators :
    parseD "a:b or c:d or e:f".data =
      ⟨[.leaf .or ⟨"a".data, "eq".data, "b".data⟩,
        .leaf .or ⟨"c".data, "eq".data, "d".data⟩,
        .leaf .or ⟨"e".data, "eq".data, "f".data⟩], [],
       ⟨["a".data, "c".data, "e".data], ["eq".data], ["b".data, "d".data, "f".data],
        [⟨"a".data, "eq".data, "b".data⟩, ⟨"c".data, "eq".data, "d".data⟩,
         ⟨"e".data, "eq".data, "f".data⟩]⟩⟩ ∧
    (parseD "a:b or c:d e:f".data).parsed =
      [.leaf .or ⟨"a".data, "eq".data, "b".data⟩,
       .leaf .and ⟨"c".data, "eq".data, "d".data⟩,
       .leaf .and ⟨"e".data, "eq".data, "f".data⟩] :=
  ⟨rfl, rfl⟩

/-- C7: `parse("foo:eq:(bar))")` returns exactly one leaf
`{key:"foo", operator:"eq", value:"bar"}` and `unparsed = ")"`: after the leaf
(cursor 12) no join keyword matches and the nesting level of the call is
`some 0`, so the run of closing parentheses ahead (1) is compared with the
opening count (0) and the mismatch throws `ParenLevelMismatch`, leaving the
dangling `)` unconsumed in `unparsed`. -/
theorem c7_paren_level_mismatch :
    (∀ m : MetaAcc,
      parseConditionOperator (mkCfg "foo:eq:(bar))".data "eq".data
          (fun e => some e) none) (some 0) ⟨12, m⟩ =
        .err (.parenLevelMismatch 0 1) ⟨12, m⟩) ∧
    parseD "foo:eq:(bar))".data =
      ⟨[.leaf .and ⟨"foo".data, "eq".data, "bar".data⟩],
       ")".data,
       ⟨["foo".data], ["eq".data], ["bar".data],
        [⟨"foo".data, "eq".data, "bar".data⟩]⟩⟩ :=
  ⟨fun _ => rfl, rfl⟩

/-- C10: `unparsed` is non-empty only when an internal failure was caught:
whenever `parse` completes without failure it returns `unparsed = ""`, even
when characters remain unconsumed.  Exhibited on `"(a:b))"`: the closing-paren
count (1) matches the opening run (1), the parse terminates normally, and the
final `)` appears in neither `parsed` nor `unparsed`. -/
theorem c10_unparsed_only_on_failure :
    (∀ (input dO : Str) (tr : Expr → Option Expr) (hk : Option (Expr → Option Expr)),
      (parse input dO tr hk).unparsed = [] ∨
      ∃ out e st, runParse (mkCfg input dO tr hk) = some (.err out e st)) ∧
    parseD "(a:b))".data =
      ⟨[.group .and [.leaf .and ⟨"a".data, "eq".data, "b".data⟩]], [],
       ⟨["a".data], ["eq".data], ["b".data], [⟨"a".data, "eq".data, "b".data⟩]⟩⟩ := by
  constructor
  · intro input dO tr hk
    cases hres : runParse (mkCfg input dO tr hk) with
    | none => exact absurd hres (runParse_total _)
    | some res =>
      cases res with
      | ok out st =>
        left
        simp only [parse]
        rw [hres]
      | err out e st =>
        right
        exact ⟨out, e, st, rfl⟩
  · rfl

/-! ### List helpers for the trimmed input and suffix scans -/

/-- The reverse of a suffix is a prefix of the reverse. -/
theorem reverse_suffix_prefix {α : Type} {xs ys : List α} (h : xs <:+ ys) :
    xs.reverse <+: ys.reverse := by
  obtain ⟨t, ht⟩ := h
  exact ⟨t.reverse, by rw [← List.reverse_append, ht]⟩

/-- `dropWhile` returns a suffix. -/
theorem dropWhile_isSuffix {α : Type} (p : α → Bool) : ∀ l : List α, l.dropWhile p <:+ l := by
  intro l
  induction l with
  | nil => exact List.suffix_rfl
  | cons a t ih =>
    rw [List.dropWhile_cons]
    split
    · exact ih.trans (List.suffix_cons a t)
    · exact List.suffix_rfl

/-- Trimming only removes a suffix of the left-trimmed input. -/
theorem trimChars_front (l : Str) : trimChars l <+: l.dropWhile isWs := by
  have h := reverse_suffix_prefix (dropWhile_isSuffix isWs (l.dropWhile isWs).reverse)
  rw [List.reverse_reverse] at h
  exact h

/-- Characters of the trimmed input are characters of the input. -/
theorem mem_trimChars {c : Char} {l : Str} (h : c ∈ trimChars l) : c ∈ l :=
  (dropWhile_isSuffix isWs l).subset ((trimChars_front l).subset h)

/-- The head left over by `dropWhile` falsifies the predicate. -/
theorem dropWhile_head_not (p : Char → Bool) : ∀ (l : Str) (c : Char),
    (l.dropWhile p).get? 0 = some c → p c = false := by
  intro l
  induction l with
  | nil =>
    intro c h
    exact absurd h (by simp)
  | cons a t ih =>
    intro c h
    rw [List.dropWhile_cons] at h
    by_cases hp : p a
    · rw [if_pos hp] at h
      exact ih c h
    · rw [if_neg hp] at h
      simp only [List.get?_cons_zero, Option.some.injEq] at h
      subst h
      cases hpa : p a with
      | false => rfl
      | true => exact absurd hpa hp

/-- The first character of the trimmed input is not whitespace. -/
theorem trimChars_head_not_ws {l : Str} {c : Char} (h : (trimChars l).get? 0 = some c) :
    isWs c = false := by
  obtain ⟨t, ht⟩ := trimChars_front l
  refine dropWhile_head_not isWs l c ?_
  rw [← ht, List.get?_append (get?_some_lt h)]
  exact h

/-- Splitting off the character at `p` from the `p`-th suffix. -/
theorem drop_cons_get? : ∀ (l : Str) (p : Nat) (c : Char), l.get? p = some c →
    l.drop p = c :: l.drop (p + 1) := by
  intro l
  induction l with
  | nil => intro p c h; exact absurd h (by simp)
  | cons a t ih =>
    intro p c h
    cases p with
    | zero =>
      injection h with h'
      subst h'
      rfl
    | succ n => exact ih n c h

/-- Indexing is the head of the corresponding suffix. -/
theorem get?_eq_head?_drop : ∀ (l : Str) (p : Nat), l.get? p = (l.drop p).head? := by
  intro l
  induction l with
  | nil => intro p; cases p <;> rfl
  | cons a t ih =>
    intro p
    cases p with
    | zero => rfl
    | succ n => exact ih n

/-- Two characters back from `p + 2` is `p`. -/
theorem peekP_sub2 (cfg : Cfg) (p : Nat) : peekP cfg (p + 2) (-2) = cfg.input.get? p := by
  simp only [peekP]
  rw [if_neg (by omega)]
  congr 1
  omega

/-! ### Colon-free inputs: the first leaf fails with `ExpectedColon` at the
start of the input -/

/-- Whitespace skipping does not move off a non-whitespace head. -/
theorem consumeWsGo_id (cfg : Cfg)
    (h : ∀ c, cfg.input.get? 0 = some c → isWs c = false) :
    ∀ fuel, consumeWsGo cfg fuel 0 = 0 := by
  intro fuel
  cases fuel with
  | zero => rfl
  | succ n =>
    simp only [consumeWsGo]
    split
    · rename_i c hg
      rw [h c hg]
      simp
    · rfl

/-- Whitespace skipping at the start of a trimmed input is the identity. -/
theorem consumeWhitespace_zero (cfg : Cfg) (m : MetaAcc)
    (h : ∀ c, cfg.input.get? 0 = some c → isWs c = false) :
    consumeWhitespace cfg ⟨0, m⟩ = ⟨0, m⟩ := by
  simp only [consumeWhitespace]
  rw [consumeWsGo_id cfg h]

/-- A successful quoted scan does not touch the metadata. -/
theorem parseQuotedString_meta {cfg : Cfg} {st : St} {s : Str} {st' : St}
    (h : parseQuotedString cfg st = .ok s st') : st'.meta = st.meta := by
  simp only [parseQuotedString] at h
  split at h
  · rename_i q hq
    split at h
    · split at h
      · injection h with h₁ h₂
        rw [← h₂]
      · exact absurd h (by simp)
    · exact absurd h (by simp)
  · exact absurd h (by simp)

/-- On an input with no `:` anywhere, `#parseBasicExpression` throws
`ExpectedColon` right after the key, restoring the cursor to the entry
position (provided the key scan itself succeeded without touching the
metadata). -/
theorem parseBasicExpression_colon_free (cfg : Cfg) (out : Nodes) (op : JoinOp)
    (st : St) (hcol : ':' ∉ cfg.input)
    (hkey : ∃ key st₁, parseKeyLiteral cfg st = .ok key st₁ ∧ st₁.meta = st.meta) :
    parseBasicExpression cfg out op st = .err out .expectedColon ⟨st.pos, st.meta⟩ := by
  obtain ⟨key, st₁, hk, hm⟩ := hkey
  have hc : (consumeP cfg (consumeWhitespace cfg st₁).pos).1 ≠ some ':' := by
    simp only [consumeP]
    split
    · rename_i c hg
      intro hcc
      injection hcc with hcc'
      subst hcc'
      exact hcol (List.get?_mem hg)
    · intro hcc
      exact Option.noConfusion hcc
  simp only [parseBasicExpression]
  split
  · rename_i e st₁' hk'
    rw [hk] at hk'
    exact absurd hk' (by simp)
  · rename_i key' st₁' hk'
    rw [hk] at hk'
    injection hk' with h₁ h₂
    subst h₁
    subst h₂
    rw [if_pos hc]
    rw [show (consumeWhitespace cfg st₁).meta = st₁.meta from rfl, hm]

/-- On a colon-free input whose trimmed form neither starts with `(` nor has
whitespace at the front, the whole run fails with `ExpectedColon` at
position 0, with nothing pushed and nothing in the metadata. -/
theorem run_colon_free (cfg : Cfg) (fuel : Nat) (lvl : Option Nat)
    (hws : consumeWhitespace cfg ⟨0, .empty⟩ = ⟨0, .empty⟩)
    (hpar : peek cfg ⟨0, .empty⟩ 0 ≠ some '(')
    (hbasic : parseBasicExpression cfg [] .and ⟨0, .empty⟩ =
      .err [] .expectedColon ⟨0, .empty⟩) :
    run cfg (fuel + 2) (.condition [] .and lvl) ⟨0, .empty⟩ =
      some (.err [] .expectedColon ⟨0, .empty⟩) := by
  simp only [run]
  rw [hws, hws, if_neg hpar, hbasic]

/-- C2 (counterexample): the claim quantifies over *all* colon-free inputs,
including ones that begin with `(` or contain quotes — and exactly those two
families break it.  `parse("(a")` pushes a group node before the inner
expression fails, so `parsed` is not empty (and `unparsed` is `"a"`, not the
trimmed input `"(a"`); `parse("'a")` dies inside the quoted-key scan with the
cursor already at the end of input, so `unparsed` is `""`, not `"'a"`. -/
theorem c2_colon_free_counterexample :
    (':' ∉ ("(a".data : Str) ∧
      parseD "(a".data = ⟨[.group .and []], "a".data, metaOut .empty⟩ ∧
      "a".data ≠ trimChars "(a".data ∧ ([.group .and []] : Nodes) ≠ []) ∧
    (':' ∉ ("'a".data : Str) ∧
      parseD "'a".data = ⟨[], [], metaOut .empty⟩ ∧
      ([] : Str) ≠ trimChars "'a".data) :=
  ⟨⟨by decide, rfl, by decide, List.cons_ne_nil _ _⟩, ⟨by decide, rfl, by decide⟩⟩

/-- C2 (amended): for every colon-free input whose trimmed form does not
start with `(`, and whose leading quoted literal — when the trimmed form
starts with a quote — terminates, `parse` returns an empty `parsed`,
`unparsed` equal to the trimmed input, and empty metadata: the first leaf
fails with `ExpectedColon` and the cursor is restored to position 0. -/
theorem c2_colon_free_amended (input dO : Str) (tr : Expr → Option Expr)
    (hk : Option (Expr → Option Expr))
    (hcol : ':' ∉ input)
    (hpar : (trimChars input).get? 0 ≠ some '(')
    (hq : isQuoteAhead (mkCfg input dO tr hk) ⟨0, .empty⟩ = true →
      ∃ s st', parseQuotedString (mkCfg input dO tr hk) ⟨0, .empty⟩ = .ok s st') :
    parse input dO tr hk = ⟨[], trimChars input, metaOut .empty⟩ := by
  have hcol' : ':' ∉ (mkCfg input dO tr hk).input := fun hm => hcol (mem_trimChars hm)
  have hhead : ∀ c, (mkCfg input dO tr hk).input.get? 0 = some c → isWs c = false :=
    fun c hg => trimChars_head_not_ws hg
  have hws := consumeWhitespace_zero (mkCfg input dO tr hk) .empty hhead
  have hpar' : peek (mkCfg input dO tr hk) ⟨0, .empty⟩ 0 ≠ some '(' := by
    show peekP (mkCfg input dO tr hk) 0 0 ≠ some '('
    rw [peekP_zero]
    exact hpar
  have hkey : ∃ key st₁, parseKeyLiteral (mkCfg input dO tr hk) ⟨0, .empty⟩ = .ok key st₁ ∧
      st₁.meta = (⟨0, .empty⟩ : St).meta := by
    by_cases hqa : isQuoteAhead (mkCfg input dO tr hk) ⟨0, .empty⟩ = true
    · obtain ⟨s, st', hok⟩ := hq hqa
      exact ⟨s, st', by simp only [parseKeyLiteral]; rw [if_pos hqa]; exact hok,
        parseQuotedString_meta hok⟩
    · exact ⟨(parseUnquotedString (mkCfg input dO tr hk) ⟨0, .empty⟩).1,
        (parseUnquotedString (mkCfg input dO tr hk) ⟨0, .empty⟩).2,
        by simp only [parseKeyLiteral]; rw [if_neg hqa], rfl⟩
  have hbasic := parseBasicExpression_colon_free (mkCfg input dO tr hk) [] .and
    ⟨0, .empty⟩ hcol' hkey
  have hrun := run_colon_free (mkCfg input dO tr hk)
    (3 * (mkCfg input dO tr hk).input.length + 2)
    (some (countSameCharsAhead (mkCfg input dO tr hk) '(' ⟨0, .empty⟩)) hws hpar' hbasic
  have hRP : runParse (mkCfg input dO tr hk) =
      some (.err [] .expectedColon ⟨0, .empty⟩) := hrun
  simp only [parse]
  rw [hRP]
  rfl

/-- C2 (witness): the amended theorem at the colon-free input
`"hello world"`. -/
theorem c2_colon_free_amended_witness :
    parse "hello world".data "eq".data (fun e => some e) none =
      ⟨[], trimChars "hello world".data, metaOut .empty⟩ :=
  c2_colon_free_amended "hello world".data "eq".data (fun e => some e) none
    (by decide) (by decide) (fun h => absurd h (by decide))

/-! ### The quoted-literal scan against the reference machine -/

/-- `quotedScanRef` closes immediately on a bare quote. -/
theorem quotedScanRef_close (q : Char) (rest : Str) :
    quotedScanRef q (q :: rest) = some ([], 1) := by
  conv_lhs => unfold quotedScanRef
  rw [if_pos rfl]

/-- `quotedScanRef` consumes an escape pair as one emitted quote. -/
theorem quotedScanRef_escape (q : Char) (hq : q ≠ '\\') (rest : Str) :
    quotedScanRef q ('\\' :: q :: rest) =
      (quotedScanRef q rest).map (fun r => (q :: r.1, r.2 + 2)) := by
  conv_lhs => unfold quotedScanRef
  rw [if_neg (Ne.symm hq), if_pos rfl]
  split
  · rename_i h
    exact absurd h (by simp)
  · rename_i d rest₂ h
    injection h with h₁ h₂
    subst h₁
    subst h₂
    rw [if_pos rfl]

/-- `quotedScanRef` emits any character that neither closes nor starts an
escape pair. -/
theorem quotedScanRef_emit (q c : Char) (hc : c ≠ q) (rest : Str)
    (hskip : c = '\\' → rest.head? ≠ some q) :
    quotedScanRef q (c :: rest) =
      (quotedScanRef q rest).map (fun r => (c :: r.1, r.2 + 1)) := by
  by_cases hbs : c = '\\'
  · subst hbs
    cases rest with
    | nil =>
      conv_lhs => unfold quotedScanRef
      rw [if_neg hc, if_pos rfl]
      rfl
    | cons d rest' =>
      have hd : d ≠ q := fun h => hskip rfl (by rw [h]; rfl)
      conv_lhs => unfold quotedScanRef
      rw [if_neg hc, if_pos rfl]
      split
      · rename_i h
        exact absurd h (by simp)
      · rename_i d₂ rest₂ h
        injection h with h₁ h₂
        subst h₁
        subst h₂
        rw [if_neg hd]
  · conv_lhs => unfold quotedScanRef
    rw [if_neg hc, if_neg hbs]

/-- The scan loop of `#parseQuotedString` agrees with the reference machine
`quotedScanRef` on the remaining input: the `peek(-2)` look-behind of the
close check never blocks, because the escape branch consumes the backslash
and the quote together, so the cursor never sits on the close character with
a backslash immediately behind it (the invariant hypothesis, true at entry
because the character before the scan start is the opening quote). -/
theorem scanGo_ref (cfg : Cfg) (close : Char) (hcl : close ≠ '\\') :
    ∀ fuel p acc, cfg.input.length ≤ p + fuel →
      (cfg.input.get? p = some close → peekP cfg (p + 1) (-2) ≠ some '\\') →
      (∀ s n, quotedScanRef close (cfg.input.drop p) = some (s, n) →
          scanGo cfg close fuel acc p = (some (acc ++ s), p + n)) ∧
      (quotedScanRef close (cfg.input.drop p) = none →
          (scanGo cfg close fuel acc p).1 = none) := by
  intro fuel
  induction fuel with
  | zero =>
    intro p acc hfuel hinv
    refine ⟨fun s n hsc => ?_, fun _ => rfl⟩
    rw [List.drop_eq_nil_of_le (by omega)] at hsc
    exact absurd hsc (by simp [quotedScanRef])
  | succ m ih =>
    intro p acc hfuel hinv
    cases hg : cfg.input.get? p with
    | none =>
      have hdrop : cfg.input.drop p = [] :=
        List.drop_eq_nil_of_le (List.get?_eq_none.mp hg)
      refine ⟨fun s n hsc => ?_, fun _ => ?_⟩
      · rw [hdrop] at hsc
        exact absurd hsc (by simp [quotedScanRef])
      · simp only [scanGo]
        rw [hg]
    | some c =>
      have hdrop := drop_cons_get? cfg.input p c hg
      by_cases hc : c = close
      · subst hc
        have hguard := hinv hg
        constructor
        · intro s n hsc
          rw [hdrop, quotedScanRef_close] at hsc
          simp only [Option.some.injEq, Prod.mk.injEq] at hsc
          obtain ⟨h₁, h₂⟩ := hsc
          subst h₁
          subst h₂
          simp only [scanGo]
          split
          · rename_i heq
            rw [hg] at heq
            exact Option.noConfusion heq
          · rename_i c₁ heq
            rw [hg] at heq
            injection heq with heq'
            subst heq'
            rw [if_pos ⟨rfl, hguard⟩]
            simp
        · intro hsc
          rw [hdrop, quotedScanRef_close] at hsc
          exact Option.noConfusion hsc
      · by_cases hbs : c = '\\' ∧ cfg.input.get? (p + 1) = some close
        · obtain ⟨hbs₁, hbs₂⟩ := hbs
          subst hbs₁
          have hdrop₂ := drop_cons_get? cfg.input (p + 1) close hbs₂
          have hQ : quotedScanRef close (cfg.input.drop p) =
              (quotedScanRef close (cfg.input.drop (p + 2))).map
                (fun r => (close :: r.1, r.2 + 2)) := by
            rw [hdrop, hdrop₂]
            exact quotedScanRef_escape close hcl (cfg.input.drop (p + 2))
          have hscan : scanGo cfg close (m + 1) acc p =
              scanGo cfg close m (acc ++ [close]) (p + 2) := by
            simp only [scanGo]
            split
            · rename_i heq
              rw [hg] at heq
              exact Option.noConfusion heq
            · rename_i c₁ heq
              rw [hg] at heq
              injection heq with heq'
              subst heq'
              rw [if_neg (fun hcc => hc hcc.1),
                if_pos ⟨rfl, by rw [peekP_zero]; exact hbs₂⟩]
          have hinv₂ : cfg.input.get? (p + 2) = some close →
              peekP cfg (p + 2 + 1) (-2) ≠ some '\\' := by
            intro _ hbad
            have h₂ : cfg.input.get? (p + 1) = some '\\' := by
              rw [← peekP_sub2 cfg (p + 1)]
              exact hbad
            rw [hbs₂] at h₂
            injection h₂ with h₂'
            exact hcl h₂'
          have IH := ih (p + 2) (acc ++ [close]) (by omega) hinv₂
          constructor
          · intro s n hsc
            rw [hQ] at hsc
            cases ho : quotedScanRef close (cfg.input.drop (p + 2)) with
            | none =>
              rw [ho] at hsc
              exact absurd hsc (by simp)
            | some r =>
              rw [ho] at hsc
              simp only [Option.map_some', Option.some.injEq, Prod.mk.injEq] at hsc
              obtain ⟨h₁, h₂⟩ := hsc
              subst h₁
              subst h₂
              rw [hscan, IH.1 r.1 r.2 (by rw [ho])]
              refine Prod.ext ?_ ?_
              · simp
              · simp only []
                omega
          · intro hsc
            rw [hQ] at hsc
            cases ho : quotedScanRef close (cfg.input.drop (p + 2)) with
            | some r =>
              rw [ho] at hsc
              exact absurd hsc (by simp)
            | none =>
              rw [hscan]
              exact IH.2 ho
        · have hQ : quotedScanRef close (cfg.input.drop p) =
              (quotedScanRef close (cfg.input.drop (p + 1))).map
                (fun r => (c :: r.1, r.2 + 1)) := by
            rw [hdrop]
            refine quotedScanRef_emit close c hc _ ?_
            intro hc' hhead
            exact hbs ⟨hc', by rw [get?_eq_head?_drop]; exact hhead⟩
          have hscan : scanGo cfg close (m + 1) acc p =
              scanGo cfg close m (acc ++ [c]) (p + 1) := by
            simp only [scanGo]
            split
            · rename_i heq
              rw [hg] at heq
              exact Option.noConfusion heq
            · rename_i c₁ heq
              rw [hg] at heq
              injection heq with heq'
              subst heq'
              rw [if_neg (fun hcc => hc hcc.1),
                if_neg (fun hcc => hbs ⟨hcc.1, by rw [← peekP_zero cfg (p + 1)]; exact hcc.2⟩)]
          have hinv₁ : cfg.input.get? (p + 1) = some close →
              peekP cfg (p + 1 + 1) (-2) ≠ some '\\' := by
            intro hnext hbad
            have h₂ : cfg.input.get? p = some '\\' := by
              rw [← peekP_sub2 cfg p]
              exact hbad
            rw [hg] at h₂
            injection h₂ with h₂'
            exact hbs ⟨h₂', hnext⟩
          have IH := ih (p + 1) (acc ++ [c]) (by omega) hinv₁
          constructor
          · intro s n hsc
            rw [hQ] at hsc
            cases ho : quotedScanRef close (cfg.input.drop (p + 1)) with
            | none =>
              rw [ho] at hsc
              exact absurd hsc (by simp)
            | some r =>
              rw [ho] at hsc
              simp only [Option.map_some', Option.some.injEq, Prod.mk.injEq] at hsc
              obtain ⟨h₁, h₂⟩ := hsc
              subst h₁
              subst h₂
              rw [hscan, IH.1 r.1 r.2 (by rw [ho])]
              refine Prod.ext ?_ ?_
              · simp
              · simp only []
                omega
          · intro hsc
            rw [hQ] at hsc
            cases ho : quotedScanRef close (cfg.input.drop (p + 1)) with
            | some r =>
              rw [ho] at hsc
              exact absurd hsc (by simp)
            | none =>
              rw [hscan]
              exact IH.2 ho

/-- C6 (counterexample): the claim's reading — the closing quote only needs to
be "not preceded by an *unescaped* backslash", so a double backslash before
the quote still closes the literal — disagrees with the code, whose look-behind
checks one character only.  On `'a\\'` (content `a` followed by an escaped
backslash) the claim's scanner terminates, but `#parseQuotedString` consumes
`\'` as an escape pair and dies at end of input with `UnterminatedQuote`. -/
theorem c6_escaped_backslash_counterexample :
    specQuotedTerminates '\'' "a\\\\'".data = true ∧
    parseQuotedString (mkCfg "'a\\\\'".data "eq".data (fun e => some e) none) ⟨0, .empty⟩
      = .err .unterminatedQuote ⟨5, .empty⟩ :=
  ⟨by decide, rfl⟩

/-- C6 (amended): `#parseQuotedString` behaves as the two-character
left-to-right machine `quotedScanRef`: a backslash immediately followed by the
quote character is an escape (the quote is emitted, both characters are
consumed), any other character — including a backslash not followed by the
quote — is emitted as-is, the first quote not consumed by an escape closes the
literal with the cursor right after it, and `UnterminatedQuote` is thrown
exactly when the machine never closes.  The look-behind in the code's close
check never fires, because the escape branch consumes backslash and quote
together. -/
theorem c6_quoted_scan_amended (cfg : Cfg) (st : St) (q : Char)
    (hq : peek cfg st 0 = some q) (hquote : q = '\'' ∨ q = '"') :
    (∀ s n, quotedScanRef q (cfg.input.drop (st.pos + 1)) = some (s, n) →
        parseQuotedString cfg st = .ok s ⟨st.pos + 1 + n, st.meta⟩) ∧
    (quotedScanRef q (cfg.input.drop (st.pos + 1)) = none →
        ∃ p, parseQuotedString cfg st = .err .unterminatedQuote ⟨p, st.meta⟩) := by
  have hcl : q ≠ '\\' := by
    rcases hquote with h | h <;> subst h <;> decide
  have hinv : cfg.input.get? (st.pos + 1) = some q →
      peekP cfg (st.pos + 1 + 1) (-2) ≠ some '\\' := by
    intro _ hbad
    have h₂ : cfg.input.get? st.pos = some '\\' := by
      rw [← peekP_sub2 cfg st.pos]
      exact hbad
    have hq' : cfg.input.get? st.pos = some q := by
      rw [← peekP_zero cfg st.pos]
      exact hq
    rw [hq'] at h₂
    injection h₂ with h₂'
    exact hcl h₂'
  have hmain := scanGo_ref cfg q hcl (cfg.input.length - (st.pos + 1)) (st.pos + 1) []
    (by omega) hinv
  constructor
  · intro s n hsc
    have hA := hmain.1 s n hsc
    simp only [parseQuotedString]
    split
    · rename_i q₁ hq₁
      rw [hq] at hq₁
      injection hq₁ with hq₁'
      subst hq₁'
      rw [if_pos hquote, hA]
      simp
    · rename_i hq₁
      rw [hq] at hq₁
      exact Option.noConfusion hq₁
  · intro hsc
    have hB := hmain.2 hsc
    rcases hres : scanGo cfg q (cfg.input.length - (st.pos + 1)) [] (st.pos + 1)
      with ⟨o, pe⟩
    rw [hres] at hB
    simp only [] at hB
    subst hB
    refine ⟨pe, ?_⟩
    simp only [parseQuotedString]
    split
    · rename_i q₁ hq₁
      rw [hq] at hq₁
      injection hq₁ with hq₁'
      subst hq₁'
      rw [if_pos hquote, hres]
    · rename_i hq₁
      rw [hq] at hq₁
      exact Option.noConfusion hq₁

/-- C6 (witness): the amended theorem at the input `'ab'`: the reference
machine closes after `ab`, and `#parseQuotedString` returns content `ab` with
the cursor after the closing quote. -/
theorem c6_quoted_scan_amended_witness :
    parseQuotedString (mkCfg "'ab'".data "eq".data (fun e => some e) none) ⟨0, .empty⟩
      = .ok "ab".data ⟨0 + 1 + 3, .empty⟩ :=
  (c6_quoted_scan_amended (mkCfg "'ab'".data "eq".data (fun e => some e) none)
    ⟨0, .empty⟩ '\'' (by decide) (Or.inl rfl)).1 "ab".data 3 (by decide)

/-- C8: when a `preAddHook` is installed and returns a falsy result for the
candidate leaf, the appended node is not dropped: it carries the placeholder
expression `{key:"1", operator:<default operator>, value:"1"}`.  In general a
syntactically accepted leaf term appends exactly one node — built by
`transform` then the hook — and a rejected term appends none, so the node
count always mirrors the number of accepted terms.  Exhibited end-to-end on
`"foo:bar baz:bat"` with a hook rejecting every leaf: two placeholder nodes,
and the metadata records the placeholder (not the scanned triples). -/
theorem c8_hook_falsy_placeholder :
    (∀ (cfg : Cfg) (h : Expr → Option Expr) (cand : Expr),
        cfg.preAddHook = some h → h cand = none →
        hookApply cfg cand = placeholderExpr cfg) ∧
    (∀ (cfg : Cfg) (out : Nodes) (op : JoinOp) (st : St),
        (∃ e st', parseBasicExpression cfg out op st = .ok (out ++ [.leaf op e]) st' ∧
          ∃ cand, e = hookApply cfg (transformApply cfg cand)) ∨
        (∃ er st', parseBasicExpression cfg out op st = .err out er st')) ∧
    parse "foo:bar baz:bat".data "eq".data (fun e => some e) (some (fun _ => none)) =
      ⟨[.leaf .and ⟨"1".data, "eq".data, "1".data⟩,
        .leaf .and ⟨"1".data, "eq".data, "1".data⟩], [],
       ⟨["1".data], ["eq".data], ["1".data], [⟨"1".data, "eq".data, "1".data⟩]⟩⟩ := by
  refine ⟨?_, ?_, rfl⟩
  · intro cfg h cand h₁ h₂
    simp only [hookApply]
    split
    · rename_i hnone
      rw [h₁] at hnone
      exact Option.noConfusion hnone
    · rename_i hk' hsome
      rw [h₁] at hsome
      injection hsome with hsome'
      subst hsome'
      split
      · rename_i e he
        rw [h₂] at he
        exact Option.noConfusion he
      · rfl
  · intro cfg out op st
    rcases parseBasicExpression_master cfg out op st with
      ⟨e, st', hok, _, _, _, hcand⟩ | ⟨er, st', herr, _⟩
    · exact Or.inl ⟨e, st', hok, hcand⟩
    · exact Or.inr ⟨er, st', herr⟩

/-! ### Metadata: `addUnique` folds compute first-occurrence deduplication -/

/-- Unfolding equation of `dedupFirst` on a cons. -/
theorem dedupFirst_cons {α : Type} [DecidableEq α] (x : α) (xs : List α) :
    dedupFirst (x :: xs) = x :: dedupFirst (xs.filter (fun y => y ≠ x)) := by
  rw [dedupFirst]

/-- Filtering by "not in `acc ++ [x]`" is filtering by "not in `acc`" and then
by "not equal to `x`". -/
theorem filter_not_mem_append_singleton {α : Type} [DecidableEq α] (x : α)
    (acc : List α) : ∀ xs : List α,
    xs.filter (fun y => y ∉ acc ++ [x]) =
      (xs.filter (fun y => y ∉ acc)).filter (fun y => y ≠ x) := by
  intro xs
  induction xs with
  | nil => rfl
  | cons a t iht =>
    by_cases h2 : a ∈ acc
    · have hmem : a ∈ acc ++ [x] := List.mem_append_left _ h2
      simp [List.filter_cons, h2, hmem, iht]
      exact List.filter_congr fun y _ => Bool.and_comm _ _
    · by_cases h1 : a = x
      · subst h1
        have hmem : a ∈ acc ++ [a] := List.mem_append_right _ (by simp)
        simp [List.filter_cons, h2, hmem, iht]
        exact List.filter_congr fun y _ => Bool.and_comm _ _
      · have hmem : a ∉ acc ++ [x] := by simp [h2, h1]
        simp [List.filter_cons, h2, h1, hmem, iht]
        exact List.filter_congr fun y _ => Bool.and_comm _ _

/-- A left fold of `addUnique` appends, in first-occurrence order, exactly the
elements not already present. -/
theorem foldl_addUnique {α : Type} [DecidableEq α] :
    ∀ (l acc : List α),
      List.foldl addUnique acc l = acc ++ dedupFirst (l.filter (fun y => y ∉ acc)) := by
  intro l
  induction l with
  | nil =>
    intro acc
    simp [dedupFirst]
  | cons x xs ih =>
    intro acc
    by_cases hx : x ∈ acc
    · have h1 : addUnique acc x = acc := if_pos hx
      have h2 : List.filter (fun y => y ∉ acc) (x :: xs) =
          xs.filter (fun y => y ∉ acc) := by
        rw [List.filter_cons]
        simp [hx]
      simp only [List.foldl_cons]
      rw [h1, ih acc, h2]
    · have h1 : addUnique acc x = acc ++ [x] := if_neg hx
      have h2 : List.filter (fun y => y ∉ acc) (x :: xs) =
          x :: xs.filter (fun y => y ∉ acc) := by
        rw [List.filter_cons]
        simp [hx]
      simp only [List.foldl_cons]
      rw [h1, ih (acc ++ [x]), h2, dedupFirst_cons,
        filter_not_mem_append_singleton x acc xs]
      simp

/-- Elements of the deduplicated list are elements of the list (strong
induction on the length). -/
theorem mem_dedupFirst {α : Type} [DecidableEq α] :
    ∀ (n : Nat) (l : List α), l.length ≤ n → ∀ a, a ∈ dedupFirst l → a ∈ l := by
  intro n
  induction n with
  | zero =>
    intro l hl a ha
    rw [List.length_eq_zero.mp (Nat.le_zero.mp hl)] at ha ⊢
    exact absurd ha (by simp [dedupFirst])
  | succ m ih =>
    intro l hl a ha
    cases l with
    | nil => exact absurd ha (by simp [dedupFirst])
    | cons x xs =>
      rw [dedupFirst_cons] at ha
      rcases List.mem_cons.mp ha with h | h
      · exact h ▸ List.mem_cons_self x xs
      · have hlen : (xs.filter (fun y => y ≠ x)).length ≤ m :=
          Nat.le_trans (List.length_filter_le _ _) (by simpa using hl)
        have := ih _ hlen a h
        exact List.mem_cons_of_mem x (List.mem_of_mem_filter this)

/-- The deduplicated list has no duplicates. -/
theorem dedupFirst_nodup {α : Type} [DecidableEq α] :
    ∀ (n : Nat) (l : List α), l.length ≤ n → (dedupFirst l).Nodup := by
  intro n
  induction n with
  | zero =>
    intro l hl
    rw [List.length_eq_zero.mp (Nat.le_zero.mp hl)]
    simp [dedupFirst]
  | succ m ih =>
    intro l hl
    cases l with
    | nil => simp [dedupFirst]
    | cons x xs =>
      rw [dedupFirst_cons]
      have hlen : (xs.filter (fun y => y ≠ x)).length ≤ m :=
        Nat.le_trans (List.length_filter_le _ _) (by simpa using hl)
      refine List.nodup_cons.mpr ⟨?_, ih _ hlen⟩
      intro hx
      have hmem := mem_dedupFirst _ _ (Nat.le_refl _) x hx
      have := List.of_mem_filter hmem
      simp at this

/-- Deduplication commutes with mapping an injective function. -/
theorem dedupFirst_map {α β : Type} [DecidableEq α] [DecidableEq β]
    (f : α → β) (hf : ∀ a b, f a = f b → a = b) :
    ∀ (n : Nat) (l : List α), l.length ≤ n →
      dedupFirst (l.map f) = (dedupFirst l).map f := by
  intro hn
  induction hn with
  | zero =>
    intro l hl
    rw [List.length_eq_zero.mp (Nat.le_zero.mp hl)]
    simp [dedupFirst]
  | succ m ih =>
    intro l hl
    cases l with
    | nil => simp [dedupFirst]
    | cons x xs =>
      simp only [List.map_cons]
      rw [dedupFirst_cons, dedupFirst_cons]
      have hfil : (xs.map f).filter (fun y => y ≠ f x) =
          (xs.filter (fun y => y ≠ x)).map f := by
        rw [List.filter_map]
        refine congrArg _ (List.filter_congr ?_)
        intro a _
        simp only [Function.comp_apply, decide_not]
        by_cases hax : a = x
        · subst hax
          simp
        · rw [decide_eq_false hax, decide_eq_false (fun hc => hax (hf a x hc))]
      have hlen : (xs.filter (fun y => y ≠ x)).length ≤ m :=
        Nat.le_trans (List.length_filter_le _ _) (by simpa using hl)
      rw [hfil, ih _ hlen, List.map_cons]

/-- `addUnique` into an empty accumulator computes `dedupFirst`. -/
theorem foldl_addUnique_nil {α : Type} [DecidableEq α] (l : List α) :
    List.foldl addUnique [] l = dedupFirst l := by
  rw [foldl_addUnique]
  simp

/-- The `keys` accumulator is an `addUnique` fold of the emitted keys. -/
theorem foldl_metaAdd_keys : ∀ (L : List Expr) (m : MetaAcc),
    (List.foldl metaAdd m L).keys = List.foldl addUnique m.keys (L.map Expr.key) := by
  intro L
  induction L with
  | nil => intro m; rfl
  | cons e L ih =>
    intro m
    simp only [List.foldl_cons, List.map_cons]
    exact ih (metaAdd m e)

/-- The `operators` accumulator is an `addUnique` fold of the emitted
operators. -/
theorem foldl_metaAdd_operators : ∀ (L : List Expr) (m : MetaAcc),
    (List.foldl metaAdd m L).operators =
      List.foldl addUnique m.operators (L.map Expr.operator) := by
  intro L
  induction L with
  | nil => intro m; rfl
  | cons e L ih =>
    intro m
    simp only [List.foldl_cons, List.map_cons]
    exact ih (metaAdd m e)

/-- The `values` accumulator is an `addUnique` fold of the emitted values. -/
theorem foldl_metaAdd_values : ∀ (L : List Expr) (m : MetaAcc),
    (List.foldl metaAdd m L).values =
      List.foldl addUnique m.values (L.map Expr.value) := by
  intro L
  induction L with
  | nil => intro m; rfl
  | cons e L ih =>
    intro m
    simp only [List.foldl_cons, List.map_cons]
    exact ih (metaAdd m e)

/-- The `expressions` accumulator is an `addUnique` fold of the emitted
triples. -/
theorem foldl_metaAdd_expressions : ∀ (L : List Expr) (m : MetaAcc),
    (List.foldl metaAdd m L).expressions =
      List.foldl addUnique m.expressions
        (L.map (fun e => (e.key, e.operator, e.value))) := by
  intro L
  induction L with
  | nil => intro m; rfl
  | cons e L ih =>
    intro m
    simp only [List.foldl_cons, List.map_cons]
    exact ih (metaAdd m e)

/-- C9: for every input and options, the four metadata accumulators
(`keys`, `operators`, `values`, `expressions`) list, without duplicates and in
order of first occurrence, the projections of the emitted (post-transform,
post-hook) leaves of the parsed output — no matter how often a key, operator,
value or full triple repeats across the input. -/
theorem c9_meta_first_occurrence (input dO : Str) (tr : Expr → Option Expr)
    (hk : Option (Expr → Option Expr)) :
    (parse input dO tr hk).meta.keys =
        dedupFirst ((leaves (parse input dO tr hk).parsed).map Expr.key) ∧
    (parse input dO tr hk).meta.operators =
        dedupFirst ((leaves (parse input dO tr hk).parsed).map Expr.operator) ∧
    (parse input dO tr hk).meta.values =
        dedupFirst ((leaves (parse input dO tr hk).parsed).map Expr.value) ∧
    (parse input dO tr hk).meta.expressions =
        dedupFirst (leaves (parse input dO tr hk).parsed) ∧
    (parse input dO tr hk).meta.keys.Nodup ∧
    (parse input dO tr hk).meta.operators.Nodup ∧
    (parse input dO tr hk).meta.values.Nodup ∧
    (parse input dO tr hk).meta.expressions.Nodup := by
  cases hres : runParse (mkCfg input dO tr hk) with
  | none => exact absurd hres (runParse_total _)
  | some res =>
    have hf := run_facts (mkCfg input dO tr hk) (FUEL (mkCfg input dO tr hk))
      (initialCall (mkCfg input dO tr hk)) ⟨0, .empty⟩ res hres
    obtain ⟨L, hL, hm⟩ := hf.2.2.1
    simp only [initialCall, Call.out, leaves_nil, List.nil_append] at hL
    have hparsed : (parse input dO tr hk).parsed = res.out := by
      cases res with
      | ok out st =>
        simp only [parse]
        rw [hres]
        rfl
      | err out e st =>
        simp only [parse]
        rw [hres]
        rfl
    have hmeta : (parse input dO tr hk).meta = metaOut res.st.meta := by
      cases res with
      | ok out st =>
        simp only [parse]
        rw [hres]
        rfl
      | err out e st =>
        simp only [parse]
        rw [hres]
        rfl
    have hLp : leaves (parse input dO tr hk).parsed = L := by
      rw [hparsed]
      exact hL
    have hinj : ∀ a b : Expr,
        (a.key, a.operator, a.value) = (b.key, b.operator, b.value) → a = b := by
      intro a b hab
      cases a
      cases b
      simp only [Prod.mk.injEq] at hab
      obtain ⟨h₁, h₂, h₃⟩ := hab
      rw [h₁, h₂, h₃]
    have hkeys : (parse input dO tr hk).meta.keys = dedupFirst (L.map Expr.key) := by
      rw [hmeta]
      simp only [metaOut]
      rw [hm, foldl_metaAdd_keys]
      exact foldl_addUnique_nil _
    have hops : (parse input dO tr hk).meta.operators =
        dedupFirst (L.map Expr.operator) := by
      rw [hmeta]
      simp only [metaOut]
      rw [hm, foldl_metaAdd_operators]
      exact foldl_addUnique_nil _
    have hvals : (parse input dO tr hk).meta.values =
        dedupFirst (L.map Expr.value) := by
      rw [hmeta]
      simp only [metaOut]
      rw [hm, foldl_metaAdd_values]
      exact foldl_addUnique_nil _
    have hexprs : (parse input dO tr hk).meta.expressions = dedupFirst L := by
      rw [hmeta]
      simp only [metaOut]
      rw [hm, foldl_metaAdd_expressions]
      have h₀ : List.foldl addUnique
            (({ pos := 0, meta := MetaAcc.empty } : St)).meta.expressions
            (L.map (fun e => (e.key, e.operator, e.value))) =
          dedupFirst (L.map (fun e => (e.key, e.operator, e.value))) :=
        foldl_addUnique_nil _
      rw [h₀, dedupFirst_map (fun e => (e.key, e.operator, e.value)) hinj L.length L
        (Nat.le_refl _), List.map_map]
      exact List.map_id _
    refine ⟨?_, ?_, ?_, ?_, ?_, ?_, ?_, ?_⟩
    · rw [hLp]
      exact hkeys
    · rw [hLp]
      exact hops
    · rw [hLp]
      exact hvals
    · rw [hLp]
      exact hexprs
    · rw [hkeys]
      exact dedupFirst_nodup _ _ (Nat.le_refl _)
    · rw [hops]
      exact dedupFirst_nodup _ _ (Nat.le_refl _)
    · rw [hvals]
      exact dedupFirst_nodup _ _ (Nat.le_refl _)
    · rw [hexprs]
      exact dedupFirst_nodup _ _ (Nat.le_refl _)
